import Mathlib

/-!
# Particle simulation core of `FinalProject.cpp`

A shallow embedding of the collision engine: the vector type, the Verlet
particle, the wall constraint, the narrow-phase resolver, the region quadtree
and the two broad-phase passes.

`double` is modelled by an arbitrary linearly ordered field `K` (exact
arithmetic); `std::sqrt` is a parameter `sqrt : K → K`, so that every
definition can be run over `ℚ` with `Rat.sqrt` and stated over `ℝ` with
`Real.sqrt`.  `Ball*` is an address (`Nat`) into a heap `Nat → Ball K`.
-/

namespace FinalProject

/-! ## Constants -/

/-- Source: `const int WINDOW_WIDTH = 800`. -/
def WINDOW_WIDTH : Nat := 800

/-- Source: `const int WINDOW_HEIGHT = 600`. -/
def WINDOW_HEIGHT : Nat := 600

/-- Source: `const int QUAD_CAPACITY = 5`. -/
def QUAD_CAPACITY : Nat := 5

/-- Source: `const double TIMESTEP = 0.01`. -/
def TIMESTEP (K : Type) [LinearOrderedField K] : K := 1 / 100

/-- Source: `const double DAMPING = 0.999`. -/
def DAMPING (K : Type) [LinearOrderedField K] : K := 999 / 1000

/-- Source: `const double RESTITUTION = 0.95` local to `resolve_collision`. -/
def RESTITUTION (K : Type) [LinearOrderedField K] : K := 95 / 100

/-- Source: `const double WALL_RESTITUTION = 0.95` local to `constrain_bounds`. -/
def WALL_RESTITUTION (K : Type) [LinearOrderedField K] : K := 95 / 100

/-! ## Vec2 -/

/-- Source: `struct Vec2 { double x, y; }`. -/
@[ext]
structure Vec2 (K : Type) where
  x : K
  y : K
deriving DecidableEq

namespace Vec2

variable {K : Type} [LinearOrderedField K]

/-- Source: `Vec2::operator+`. -/
def add (a b : Vec2 K) : Vec2 K := ⟨a.x + b.x, a.y + b.y⟩

/-- Source: `Vec2::operator-`. -/
def sub (a b : Vec2 K) : Vec2 K := ⟨a.x - b.x, a.y - b.y⟩

/-- Source: `Vec2::operator*(double)`. -/
def scale (a : Vec2 K) (scalar : K) : Vec2 K := ⟨a.x * scalar, a.y * scalar⟩

/-- Source: `Vec2::operator*(const Vec2&)`, the componentwise product. -/
def mul (a b : Vec2 K) : Vec2 K := ⟨a.x * b.x, a.y * b.y⟩

/-- Source: `Vec2::operator/(double)`: the zero vector when the scalar is zero. -/
def div (a : Vec2 K) (scalar : K) : Vec2 K :=
  if scalar ≠ 0 then ⟨a.x / scalar, a.y / scalar⟩ else ⟨0, 0⟩

/-- Source: `Vec2::lengthSq`. -/
def lengthSq (a : Vec2 K) : K := a.x * a.x + a.y * a.y

/-- Source: `Vec2::length`, with `std::sqrt` passed in. -/
def length (sqrt : K → K) (a : Vec2 K) : K := sqrt a.lengthSq

/-- Source: `Vec2::normalize`: the zero vector when the length is not positive. -/
def normalize (sqrt : K → K) (a : Vec2 K) : Vec2 K :=
  let len := a.length sqrt
  if len > 0 then ⟨a.x / len, a.y / len⟩ else ⟨0, 0⟩

/-- Dot product, written inline in `resolve_collision` as
`v_rel.x * n.x + v_rel.y * n.y`. -/
def dot (a b : Vec2 K) : K := a.x * b.x + a.y * b.y

end Vec2

/-! ## Ball -/

/-- Source: `class Ball` without the render-only `shape`. -/
structure Ball (K : Type) where
  current_pos : Vec2 K
  old_pos : Vec2 K
  acceleration : Vec2 K
  radius : K
  mass : K
deriving DecidableEq

namespace Ball

variable {K : Type} [LinearOrderedField K]

/-- Source: the constructor `Ball::Ball(pos, initial_vel, r, m, color)`. -/
def new (pos initial_vel : Vec2 K) (r m : K) : Ball K :=
  { current_pos := pos
    old_pos := pos.sub (initial_vel.scale (TIMESTEP K))
    acceleration := ⟨0, 0⟩
    radius := r
    mass := m }

/-- Source: `Ball::update_position`. -/
def update_position (b : Ball K) : Ball K :=
  let velocity := b.current_pos.sub b.old_pos
  let next_pos := (b.current_pos.add (velocity.scale (DAMPING K))).add
    (b.acceleration.scale (TIMESTEP K * TIMESTEP K))
  { b with old_pos := b.current_pos, current_pos := next_pos, acceleration := ⟨0, 0⟩ }

/-- Source: `Ball::get_velocity`. -/
def get_velocity (b : Ball K) : Vec2 K := (b.current_pos.sub b.old_pos).div (TIMESTEP K)

/-- Source: `Ball::set_velocity`. -/
def set_velocity (b : Ball K) (new_vel : Vec2 K) : Ball K :=
  { b with old_pos := b.current_pos.sub (new_vel.scale (TIMESTEP K)) }

/-- The x-axis half of `Ball::constrain_bounds` (first `if` / `else if`). -/
def constrain_x (b : Ball K) : Ball K :=
  if b.current_pos.x - b.radius < 0 then
    let b1 := { b with current_pos := ⟨b.radius, b.current_pos.y⟩ }
    b1.set_velocity (b1.get_velocity.mul ⟨-(WALL_RESTITUTION K), 1⟩)
  else if b.current_pos.x + b.radius > (WINDOW_WIDTH : K) then
    let b1 := { b with current_pos := ⟨(WINDOW_WIDTH : K) - b.radius, b.current_pos.y⟩ }
    b1.set_velocity (b1.get_velocity.mul ⟨-(WALL_RESTITUTION K), 1⟩)
  else b

/-- The y-axis half of `Ball::constrain_bounds` (second `if` / `else if`). -/
def constrain_y (b : Ball K) : Ball K :=
  if b.current_pos.y + b.radius > (WINDOW_HEIGHT : K) then
    let b1 := { b with current_pos := ⟨b.current_pos.x, (WINDOW_HEIGHT : K) - b.radius⟩ }
    b1.set_velocity (b1.get_velocity.mul ⟨1, -(WALL_RESTITUTION K)⟩)
  else if b.current_pos.y - b.radius < 0 then
    let b1 := { b with current_pos := ⟨b.current_pos.x, b.radius⟩ }
    b1.set_velocity (b1.get_velocity.mul ⟨1, -(WALL_RESTITUTION K)⟩)
  else b

/-- Source: `Ball::constrain_bounds`: the x statement, then the y statement. -/
def constrain_bounds (b : Ball K) : Ball K := constrain_y (constrain_x b)

end Ball

/-! ## Narrow phase -/

section Resolve

variable {K : Type} [LinearOrderedField K]

/-- Source: `resolve_collision(Ball* b1, Ball* b2)` for two distinct objects,
returning the two updated particles. -/
def resolve_collision (sqrt : K → K) (b1 b2 : Ball K) : Ball K × Ball K :=
  let axis := b1.current_pos.sub b2.current_pos
  let dist_sq := axis.lengthSq
  let min_dist := b1.radius + b2.radius
  let min_dist_sq := min_dist * min_dist
  if dist_sq < min_dist_sq ∧ dist_sq > 0 then
    let dist := sqrt dist_sq
    let overlap := min_dist - dist
    let n := axis.normalize sqrt
    let total_mass := b1.mass + b2.mass
    let m1_ratio := b2.mass / total_mass
    let m2_ratio := b1.mass / total_mass
    let b1 := { b1 with current_pos := b1.current_pos.add (n.scale (overlap * m1_ratio)) }
    let b2 := { b2 with current_pos := b2.current_pos.sub (n.scale (overlap * m2_ratio)) }
    let v1 := b1.get_velocity
    let v2 := b2.get_velocity
    let v_rel := v1.sub v2
    let n_dot_vrel := v_rel.x * n.x + v_rel.y * n.y
    if n_dot_vrel < 0 then
      let j := (-(1 + RESTITUTION K) * n_dot_vrel) / (1 / b1.mass + 1 / b2.mass)
      let impulse := n.scale j
      let v1_new := v1.add (impulse.scale (1 / b1.mass))
      let v2_new := v2.sub (impulse.scale (1 / b2.mass))
      (b1.set_velocity v1_new, b2.set_velocity v2_new)
    else (b1, b2)
  else (b1, b2)

/-- The square root is exact at `d`: `sqrt d` is the non-negative root of `d`. -/
def SqrtAt (sqrt : K → K) (d : K) : Prop := 0 ≤ sqrt d ∧ sqrt d * sqrt d = d

/-- Squared distance between the current positions of two particles. -/
def distSq (a b : Ball K) : K := (a.current_pos.sub b.current_pos).lengthSq

/-- The unit normal `n = axis.normalize()` of `resolve_collision`. -/
def collisionNormal (sqrt : K → K) (b1 b2 : Ball K) : Vec2 K :=
  (b1.current_pos.sub b2.current_pos).normalize sqrt

/-- The penetration depth `overlap = min_dist - dist` of `resolve_collision`. -/
def overlapDepth (sqrt : K → K) (b1 b2 : Ball K) : K :=
  b1.radius + b2.radius - sqrt (distSq b1 b2)

/-- The two particles after the positional correction of `resolve_collision`
(the assignments to `current_pos`), before velocities are read. -/
def positional_correction (sqrt : K → K) (b1 b2 : Ball K) : Ball K × Ball K :=
  ({ b1 with current_pos := b1.current_pos.add ((collisionNormal sqrt b1 b2).scale
      (overlapDepth sqrt b1 b2 * (b2.mass / (b1.mass + b2.mass)))) },
   { b2 with current_pos := b2.current_pos.sub ((collisionNormal sqrt b1 b2).scale
      (overlapDepth sqrt b1 b2 * (b1.mass / (b1.mass + b2.mass)))) })

/-- The value `n_dot_vrel` of `resolve_collision`: relative velocity along the
normal, velocities read after the positional correction. -/
def normalDotAfterPush (sqrt : K → K) (b1 b2 : Ball K) : K :=
  ((positional_correction sqrt b1 b2).1.get_velocity.sub
    (positional_correction sqrt b1 b2).2.get_velocity).dot (collisionNormal sqrt b1 b2)

/-- The vector `impulse = n * j` of `resolve_collision`. -/
def collisionImpulse (sqrt : K → K) (b1 b2 : Ball K) : Vec2 K :=
  (collisionNormal sqrt b1 b2).scale
    ((-(1 + RESTITUTION K) * normalDotAfterPush sqrt b1 b2) / (1 / b1.mass + 1 / b2.mass))

end Resolve

/-- Total linear momentum `m_a * v_a + m_b * v_b`, velocities read with
`get_velocity`. -/
def momentum {K : Type} [LinearOrderedField K] (a b : Ball K) : Vec2 K :=
  (a.get_velocity.scale a.mass).add (b.get_velocity.scale b.mass)

/-! ## Boundary and quadtree -/

/-- A `Ball*`: the address of a particle. -/
abbrev Ptr := Nat

/-- The particles behind the addresses. -/
abbrev Heap (K : Type) := Ptr → Ball K

/-- Source: `struct Boundary`. -/
structure Boundary (K : Type) where
  center : Vec2 K
  half_width : K
  half_height : K
deriving DecidableEq

namespace Boundary

variable {K : Type} [LinearOrderedField K]

/-- Source: `Boundary::contains(const Ball*)`. -/
def contains (bd : Boundary K) (ball : Ball K) : Bool :=
  decide (ball.current_pos.x ≥ bd.center.x - bd.half_width) &&
  decide (ball.current_pos.x ≤ bd.center.x + bd.half_width) &&
  decide (ball.current_pos.y ≥ bd.center.y - bd.half_height) &&
  decide (ball.current_pos.y ≤ bd.center.y + bd.half_height)

/-- Source: `Boundary::intersects(const Boundary&)`. -/
def intersects (bd range : Boundary K) : Bool :=
  !(decide (range.center.x - range.half_width > bd.center.x + bd.half_width) ||
    decide (range.center.x + range.half_width < bd.center.x - bd.half_width) ||
    decide (range.center.y - range.half_height > bd.center.y + bd.half_height) ||
    decide (range.center.y + range.half_height < bd.center.y - bd.half_height))

end Boundary

/-- Source: `class Quadtree`. `leaf` is a node with `divided == false` (all four
`children` null), `node` one with `divided == true` and its four children. -/
inductive Quadtree (K : Type) where
  | leaf (boundary : Boundary K) (balls : List Ptr) : Quadtree K
  | node (boundary : Boundary K) (balls : List Ptr)
      (c0 c1 c2 c3 : Quadtree K) : Quadtree K

namespace Quadtree

variable {K : Type} [LinearOrderedField K]

/-- The member `boundary`. -/
def boundary : Quadtree K → Boundary K
  | leaf bd _ => bd
  | node bd _ _ _ _ _ => bd

/-- The member `balls`: the particles held directly by this node. -/
def balls : Quadtree K → List Ptr
  | leaf _ bs => bs
  | node _ bs _ _ _ _ => bs

/-- The member `divided`. -/
def divided : Quadtree K → Bool
  | leaf _ _ => false
  | node _ _ _ _ _ _ => true

/-- The four children of a node. -/
abbrev Children (K : Type) := Quadtree K × Quadtree K × Quadtree K × Quadtree K

/-- Source: `Quadtree::subdivide`: the four fresh children, in index order. -/
def subdivide (bd : Boundary K) : Children K :=
  let x := bd.center.x
  let y := bd.center.y
  let hw := bd.half_width / 2
  let hh := bd.half_height / 2
  (leaf ⟨⟨x - hw, y - hh⟩, hw, hh⟩ [],
   leaf ⟨⟨x + hw, y - hh⟩, hw, hh⟩ [],
   leaf ⟨⟨x - hw, y + hh⟩, hw, hh⟩ [],
   leaf ⟨⟨x + hw, y + hh⟩, hw, hh⟩ [])

/-- The loop `for (i = 0; i < 4; ++i) if (children[i]->insert(b)) ...` of
`Quadtree::insert`: stops at the first child that accepts; `ins` is the
recursive call. `none` is a call that did not return. -/
def tryChildren (ins : Quadtree K → Option (Bool × Quadtree K)) (cs : Children K) :
    Option (Bool × Children K) :=
  match ins cs.1 with
  | none => none
  | some (true, c0) => some (true, (c0, cs.2.1, cs.2.2.1, cs.2.2.2))
  | some (false, c0) =>
    match ins cs.2.1 with
    | none => none
    | some (true, c1) => some (true, (c0, c1, cs.2.2.1, cs.2.2.2))
    | some (false, c1) =>
      match ins cs.2.2.1 with
      | none => none
      | some (true, c2) => some (true, (c0, c1, c2, cs.2.2.2))
      | some (false, c2) =>
        match ins cs.2.2.2 with
        | none => none
        | some (r, c3) => some (r, (c0, c1, c2, c3))

/-- The loop `for (Ball* b : oldBalls)` of `Quadtree::insert`: each old particle
goes to the first child that accepts it, or back to this node's `balls`. -/
def redistribute (ins : Ptr → Quadtree K → Option (Bool × Quadtree K)) :
    List Ptr → List Ptr × Children K → Option (List Ptr × Children K)
  | [], st => some st
  | b :: rest, (kept, cs) =>
    match tryChildren (ins b) cs with
    | none => none
    | some (true, cs1) => redistribute ins rest (kept, cs1)
    | some (false, cs1) => redistribute ins rest (kept ++ [b], cs1)

/-- Source: `Quadtree::insert`. The first argument bounds the recursion depth;
`none` means the depth was exhausted. The result is the returned `bool` and the
tree after the call. -/
def insert (heap : Heap K) : Nat → Quadtree K → Ptr → Option (Bool × Quadtree K)
  | 0, _, _ => none
  | fuel + 1, t, ball =>
    if !(t.boundary.contains (heap ball)) then some (false, t)
    else
      match t with
      | leaf bd bs =>
        if bs.length < QUAD_CAPACITY then some (true, leaf bd (bs ++ [ball]))
        else
          match redistribute (fun b c => insert heap fuel c b) bs ([], subdivide bd) with
          | none => none
          | some (kept, cs) =>
            match tryChildren (fun c => insert heap fuel c ball) cs with
            | none => none
            | some (true, cs1) => some (true, node bd kept cs1.1 cs1.2.1 cs1.2.2.1 cs1.2.2.2)
            | some (false, cs1) =>
              some (true, node bd (kept ++ [ball]) cs1.1 cs1.2.1 cs1.2.2.1 cs1.2.2.2)
      | node bd bs c0 c1 c2 c3 =>
        match tryChildren (fun c => insert heap fuel c ball) (c0, c1, c2, c3) with
        | none => none
        | some (true, cs1) => some (true, node bd bs cs1.1 cs1.2.1 cs1.2.2.1 cs1.2.2.2)
        | some (false, cs1) =>
          some (true, node bd (bs ++ [ball]) cs1.1 cs1.2.1 cs1.2.2.1 cs1.2.2.2)

/-- Source: `Quadtree::query`; `found` is the output vector `found_balls`. -/
def query (range : Boundary K) : Quadtree K → List Ptr → List Ptr
  | leaf bd bs, found => if !(bd.intersects range) then found else found ++ bs
  | node bd bs c0 c1 c2 c3, found =>
    if !(bd.intersects range) then found
    else query range c3 (query range c2 (query range c1 (query range c0 (found ++ bs))))

/-- Successive `insert` calls on one tree, as in the build loop of
`handle_collisions_quadtree`; returns the tree and the `bool` of every call. -/
def insertAll (heap : Heap K) (fuel : Nat) : Quadtree K → List Ptr →
    Option (Quadtree K × List Bool)
  | t, [] => some (t, [])
  | t, b :: rest =>
    match insert heap fuel t b with
    | none => none
    | some (r, t1) =>
      match insertAll heap fuel t1 rest with
      | none => none
      | some (t2, rs) => some (t2, r :: rs)

/-- Every particle held in the tree, node by node in preorder. -/
def allBalls : Quadtree K → List Ptr
  | leaf _ bs => bs
  | node _ bs c0 c1 c2 c3 => bs ++ (c0.allBalls ++ (c1.allBalls ++ (c2.allBalls ++ c3.allBalls)))

/-- Every particle of a subtree lies inside the boundary of the subtree's root,
at every level. -/
def Contained (heap : Heap K) : Quadtree K → Prop
  | leaf bd bs => ∀ b ∈ bs, bd.contains (heap b) = true
  | node bd bs c0 c1 c2 c3 =>
    (∀ b ∈ bs ++ (c0.allBalls ++ (c1.allBalls ++ (c2.allBalls ++ c3.allBalls))),
      bd.contains (heap b) = true) ∧
    c0.Contained heap ∧ c1.Contained heap ∧ c2.Contained heap ∧ c3.Contained heap

/-- The children of every divided node are the four quadrants made by
`subdivide`, and a divided node has non-negative half extents. -/
def Quartered : Quadtree K → Prop
  | leaf _ _ => True
  | node bd _ c0 c1 c2 c3 =>
    0 ≤ bd.half_width ∧ 0 ≤ bd.half_height ∧
    c0.boundary = (subdivide bd).1.boundary ∧ c1.boundary = (subdivide bd).2.1.boundary ∧
    c2.boundary = (subdivide bd).2.2.1.boundary ∧ c3.boundary = (subdivide bd).2.2.2.boundary ∧
    c0.Quartered ∧ c1.Quartered ∧ c2.Quartered ∧ c3.Quartered

/-- The particles of four children, in index order. -/
def allBalls4 (cs : Children K) : List Ptr :=
  cs.1.allBalls ++ (cs.2.1.allBalls ++ (cs.2.2.1.allBalls ++ cs.2.2.2.allBalls))

/-- The boundaries of four children. -/
def boundaries4 (cs : Children K) : Boundary K × Boundary K × Boundary K × Boundary K :=
  (cs.1.boundary, cs.2.1.boundary, cs.2.2.1.boundary, cs.2.2.2.boundary)

/-- What a returning call `t.insert(b)` with result `r` and final tree `t1`
guarantees. -/
structure InsertOk (heap : Heap K) (b : Ptr) (t : Quadtree K) (r : Bool)
    (t1 : Quadtree K) : Prop where
  result : r = t.boundary.contains (heap b)
  boundary_eq : t1.boundary = t.boundary
  unchanged : r = false → t1 = t
  perm : t1.allBalls.Perm (if r then b :: t.allBalls else t.allBalls)
  contained : t.Contained heap → t1.Contained heap
  quartered : t.Quartered → t1.Quartered

/-- What a returning pass of the child loop guarantees. -/
structure ChildrenOk (heap : Heap K) (b : Ptr) (cs : Children K) (r : Bool)
    (cs1 : Children K) : Prop where
  result : r = (cs.1.boundary.contains (heap b) || cs.2.1.boundary.contains (heap b) ||
    cs.2.2.1.boundary.contains (heap b) || cs.2.2.2.boundary.contains (heap b))
  boundary_eq : boundaries4 cs1 = boundaries4 cs
  unchanged : r = false → cs1 = cs
  perm : (allBalls4 cs1).Perm (if r then b :: allBalls4 cs else allBalls4 cs)
  contained : (cs.1.Contained heap ∧ cs.2.1.Contained heap ∧ cs.2.2.1.Contained heap ∧
      cs.2.2.2.Contained heap) →
    (cs1.1.Contained heap ∧ cs1.2.1.Contained heap ∧ cs1.2.2.1.Contained heap ∧
      cs1.2.2.2.Contained heap)
  quartered : (cs.1.Quartered ∧ cs.2.1.Quartered ∧ cs.2.2.1.Quartered ∧ cs.2.2.2.Quartered) →
    (cs1.1.Quartered ∧ cs1.2.1.Quartered ∧ cs1.2.2.1.Quartered ∧ cs1.2.2.2.Quartered)

end Quadtree

/-! ## Broad phase -/

section Passes

variable {K : Type} [LinearOrderedField K]

/-- State threaded through a collision pass: the particles, the counter
`checks`, and the log of the `resolve_collision` calls made so far. -/
structure PassState (K : Type) where
  heap : Heap K
  checks : Nat
  calls : List (Ptr × Ptr)

/-- The statements `resolve_collision(b1, b2); checks++;` on the heap. With
`b1 == b2` the source sees `dist_sq == 0` and changes nothing, as here. -/
def PassState.resolve (sqrt : K → K) (st : PassState K) (b1 b2 : Ptr) : PassState K :=
  let r := resolve_collision sqrt (st.heap b1) (st.heap b2)
  { heap := Function.update (Function.update st.heap b1 r.1) b2 r.2
    checks := st.checks + 1
    calls := st.calls ++ [(b1, b2)] }

/-- Source: `handle_collisions_bruteforce`; the returned count is `checks`. -/
def handle_collisions_bruteforce (sqrt : K → K) (heap : Heap K) (balls : List Ptr) :
    PassState K :=
  (List.range balls.length).foldl
    (fun st i =>
      (List.range' (i + 1) (balls.length - (i + 1))).foldl
        (fun st j => st.resolve sqrt (balls.getD i 0) (balls.getD j 0)) st)
    ⟨heap, 0, []⟩

/-- Conversion to `uint64_t`. -/
def toU64 (n : Nat) : Nat := n % 2 ^ 64

/-- Source: `key = (uint64_t)mn << 32 ^ (uint64_t)mx` with `mn`, `mx` the
smaller and larger address. -/
def pairKey (a b : Ptr) : Nat :=
  let mn := min a b
  let mx := max a b
  toU64 (toU64 mn <<< 32) ^^^ toU64 mx

/-- Source: `root_boundary` of `handle_collisions_quadtree`. -/
def root_boundary (K : Type) [LinearOrderedField K] : Boundary K :=
  ⟨⟨(WINDOW_WIDTH : K) / 2, (WINDOW_HEIGHT : K) / 2⟩, (WINDOW_WIDTH : K) / 2,
    (WINDOW_HEIGHT : K) / 2⟩

/-- Source: the loop computing `max_radius`. -/
def max_radius (heap : Heap K) (balls : List Ptr) : K :=
  balls.foldl (fun m b => max m (heap b).radius) 0

/-- Source: `search_range` around `b1`. -/
def search_range (b1 : Ball K) (maxr : K) : Boundary K :=
  ⟨b1.current_pos, b1.radius + maxr, b1.radius + maxr⟩

/-- Body of the loop `for (Ball* b2 : candidates)`; the second component of the
state is the set `checked`. -/
def candidateStep (sqrt : K → K) (b1 : Ptr) (st : PassState K × List Nat) (b2 : Ptr) :
    PassState K × List Nat :=
  if b1 = b2 then st
  else if pairKey b1 b2 ∈ st.2 then st
  else (st.1.resolve sqrt b1 b2, pairKey b1 b2 :: st.2)

/-- Body of the loop over `i` in `handle_collisions_quadtree`. -/
def queryStep (sqrt : K → K) (tree : Quadtree K) (maxr : K) (balls : List Ptr)
    (st : PassState K × List Nat) (i : Nat) : PassState K × List Nat :=
  let b1 := balls.getD i 0
  let candidates := tree.query (search_range (st.1.heap b1) maxr) []
  candidates.foldl (candidateStep sqrt b1) st

/-- Source: `handle_collisions_quadtree`; the returned count is `checks`.
`none` when a build `insert` exhausts the depth bound `fuel`. -/
def handle_collisions_quadtree (sqrt : K → K) (fuel : Nat) (heap : Heap K)
    (balls : List Ptr) : Option (PassState K) :=
  match Quadtree.insertAll heap fuel (Quadtree.leaf (root_boundary K) []) balls with
  | none => none
  | some (tree, _) =>
    some ((List.range balls.length).foldl
      (queryStep sqrt tree (max_radius heap balls) balls) (⟨heap, 0, []⟩, [])).1

/-- The unordered pairs of a call log. -/
def unorderedPairs (calls : List (Ptr × Ptr)) : List (Sym2 Ptr) :=
  calls.map Sym2.mk

/-- Loop invariant of the indexed pass over the call log and the set `checked`:
every logged call pairs two different particles of the collection, its key has
been recorded, and no unordered pair is logged twice. -/
def PassInv (balls : List Ptr) (st : PassState K × List Nat) : Prop :=
  (∀ pq ∈ st.1.calls, pq.1 ≠ pq.2 ∧ pq.1 ∈ balls ∧ pq.2 ∈ balls ∧ pairKey pq.1 pq.2 ∈ st.2) ∧
  (unorderedPairs st.1.calls).Nodup

/-- Spec wording of the exhaustive pass: the index pairs `(i, j)`, `i < j < n`,
in lexicographic order. -/
def indexPairs (n : Nat) : List (Nat × Nat) :=
  (List.range n).flatMap fun i => (List.range' (i + 1) (n - (i + 1))).map fun j => (i, j)

/-- Lexicographic order on index pairs. -/
def lexLt (p q : Nat × Nat) : Prop := p.1 < q.1 ∨ (p.1 = q.1 ∧ p.2 < q.2)

end Passes

/-! ## Concrete particles over `ℚ` -/

/-- A particle of radius 1 and mass 1 at rest at the origin. -/
def coincidentBall : Ball ℚ := Ball.new ⟨0, 0⟩ ⟨0, 0⟩ 1 1

/-- Scenario particle: radius 20, mass 20, centre `(30, 0)`, velocity `(-50, 0)`. -/
def headOnA : Ball ℚ := Ball.new ⟨30, 0⟩ ⟨-50, 0⟩ 20 20

/-- Scenario particle: radius 20, mass 20, centre `(0, 0)`, velocity `(50, 0)`. -/
def headOnB : Ball ℚ := Ball.new ⟨0, 0⟩ ⟨50, 0⟩ 20 20

/-- A particle too large for the arena: radius 500 at the origin. -/
def hugeBall : Ball ℚ := Ball.new ⟨0, 0⟩ ⟨0, 0⟩ 500 500

/-- A particle far outside the arena: radius 20 at `(5000, -7000)`. -/
def strayBall : Ball ℚ := Ball.new ⟨5000, -7000⟩ ⟨10, 10⟩ 20 20

/-- Heap of the head-on scenario: address 1 is `headOnA`, every other address
`headOnB`. -/
def headOnHeap : Heap ℚ := fun p => if p = 1 then headOnA else headOnB

/-- Six particles of radius 1 and mass 1 at rest: addresses 1 to 5 in a row at
`(50 p, 50)`, address 6 (and any other) at `(700, 500)`. -/
def sixHeap : Heap ℚ := fun p =>
  Ball.new ⟨if p = 1 then 50 else if p = 2 then 100 else if p = 3 then 150
      else if p = 4 then 200 else if p = 5 then 250 else 700,
    if p = 1 ∨ p = 2 ∨ p = 3 ∨ p = 4 ∨ p = 5 then 50 else 500⟩ ⟨0, 0⟩ 1 1

/-- The tree built from `sixHeap`: the root has split once, particles 1 to 5
sit in child 0 and particle 6 in child 3. -/
def sixTree : Quadtree ℚ :=
  Quadtree.node ⟨⟨400, 300⟩, 400, 300⟩ []
    (Quadtree.leaf ⟨⟨200, 150⟩, 200, 150⟩ [1, 2, 3, 4, 5])
    (Quadtree.leaf ⟨⟨600, 150⟩, 200, 150⟩ [])
    (Quadtree.leaf ⟨⟨200, 450⟩, 200, 150⟩ [])
    (Quadtree.leaf ⟨⟨600, 450⟩, 200, 150⟩ [6])

/-- Every address holds a particle of radius 20 and mass 20 at rest at
`(100, 0)`, on the lower edge of the arena: a stack of coincident particles. -/
def stackHeap : Heap ℚ := fun _ => Ball.new ⟨100, 0⟩ ⟨0, 0⟩ 20 20

/-- The denominators of the divisions `resolve_collision` performs on masses in
its overlapping branch: `total_mass` (for both ratios), `b1->mass` and
`b2->mass` (in `1.0 / mass`), and `1.0 / b1->mass + 1.0 / b2->mass`. -/
def resolveDenominators {K : Type} [LinearOrderedField K] (b1 b2 : Ball K) : List K :=
  [b1.mass + b2.mass, b1.mass, b2.mass, 1 / b1.mass + 1 / b2.mass]

/-- A particle crossing the left wall: radius 20 at `(10, 300)` with velocity
`(-50, 30)`. -/
def wallBall : Ball ℚ := Ball.new ⟨10, 300⟩ ⟨-50, 30⟩ 20 20

/-- A particle crossing the right and the top wall: radius 20 at `(790, 590)`
with velocity `(40, 60)`. -/
def cornerBall : Ball ℚ := Ball.new ⟨790, 590⟩ ⟨40, 60⟩ 20 20

/-- A particle constructed with radius `-1` and mass `0`. -/
def invalidBall : Ball ℚ := Ball.new ⟨0, 0⟩ ⟨0, 0⟩ (-1) 0

/-- A particle of radius 1 constructed with mass `0`, at the origin. -/
def masslessA : Ball ℚ := Ball.new ⟨0, 0⟩ ⟨0, 0⟩ 1 0

/-- A particle of radius 1 constructed with mass `0`, at `(1, 0)`. -/
def masslessB : Ball ℚ := Ball.new ⟨1, 0⟩ ⟨0, 0⟩ 1 0

/-- Three particles of radius 20 and mass 20 at rest, at the 64-bit addresses
`0x1000` (centre `(100, 100)`), `0x100001000` (centre `(300, 100)`) and
`0x200000000` (centre `(310, 100)`; also every other address). The last two
overlap. -/
def keyHeap : Heap ℚ := fun p =>
  Ball.new ⟨if p = 4096 then 100 else if p = 4294971392 then 300 else 310, 100⟩ ⟨0, 0⟩ 20 20

namespace Quadtree

variable {K : Type} [LinearOrderedField K]

/-- The non-null entries of `children[4]`: none for an undivided node, the four
children of a divided one. -/
def children : Quadtree K → List (Quadtree K)
  | leaf _ _ => []
  | node _ _ c0 c1 c2 c3 => [c0, c1, c2, c3]

/-- Every node of the tree, in preorder. -/
def nodes : Quadtree K → List (Quadtree K)
  | leaf bd bs => [leaf bd bs]
  | node bd bs c0 c1 c2 c3 =>
    node bd bs c0 c1 c2 c3 :: (c0.nodes ++ (c1.nodes ++ (c2.nodes ++ c3.nodes)))

/-- Spec wording of the node invariant, for one node: an undivided node holds at
most `QUAD_CAPACITY` particles, a divided node has exactly four children and
none of the particles it holds directly lies inside a child's boundary. -/
def NodeOk (heap : Heap K) (s : Quadtree K) : Prop :=
  (s.divided = false → s.balls.length ≤ QUAD_CAPACITY) ∧
  (s.divided = true → s.children.length = 4 ∧
    ∀ b ∈ s.balls, ∀ c ∈ s.children, c.boundary.contains (heap b) = false)

/-- The node invariant at every node of the tree, by recursion on the tree. -/
def NodeInv (heap : Heap K) : Quadtree K → Prop
  | leaf _ bs => bs.length ≤ QUAD_CAPACITY
  | node _ bs c0 c1 c2 c3 =>
    (∀ b ∈ bs, c0.boundary.contains (heap b) = false ∧ c1.boundary.contains (heap b) = false ∧
      c2.boundary.contains (heap b) = false ∧ c3.boundary.contains (heap b) = false) ∧
    c0.NodeInv heap ∧ c1.NodeInv heap ∧ c2.NodeInv heap ∧ c3.NodeInv heap

end Quadtree

/-- The rectangle `b` has non-negative half extents and lies inside `r`. -/
def Boundary.inside {K : Type} [LinearOrderedField K] (b r : Boundary K) : Prop :=
  0 ≤ b.half_width ∧ 0 ≤ b.half_height ∧
  r.center.x - r.half_width ≤ b.center.x - b.half_width ∧
  b.center.x + b.half_width ≤ r.center.x + r.half_width ∧
  r.center.y - r.half_height ≤ b.center.y - b.half_height ∧
  b.center.y + b.half_height ≤ r.center.y + r.half_height

/-! ## Binary64 arithmetic of `Vec2::normalize`

The definitions above read `double` as an exact ordered field. Where the range
of `double` decides the outcome, the same source lines are read over `F64`. -/

/-- A `double`: a finite value (held as the rational it denotes; the two zeros
are not told apart), an infinity, or NaN. -/
inductive F64 where
  | fin (q : ℚ) : F64
  | pinf : F64
  | ninf : F64
  | nan : F64
deriving DecidableEq

namespace F64

/-- Nearest integer, ties to the even one. -/
def roundEven (n : ℚ) : ℤ :=
  if n - ⌊n⌋ < 1 / 2 then ⌊n⌋
  else if 1 / 2 < n - ⌊n⌋ then ⌊n⌋ + 1
  else if ⌊n⌋ % 2 = 0 then ⌊n⌋ else ⌊n⌋ + 1

/-- Rounding of an exact result to binary64, round to nearest even: 53
significant bits, least exponent `-1022` (subnormals are multiples of
`2^-1074`), overflow to an infinity from `2^1024` on. -/
def round (q : ℚ) : F64 :=
  if q = 0 then fin 0
  else if (2 : ℚ) ^ 1024 ≤ |q| then (if 0 < q then pinf else ninf)
  else
    let u : ℚ := (2 : ℚ) ^ (max (Int.log 2 |q|) (-1022) - 52)
    let r : ℚ := (roundEven (q / u) : ℚ) * u
    if (2 : ℚ) ^ 1024 ≤ |r| then (if 0 < q then pinf else ninf) else fin r

/-- The operator `*` on `double`. -/
def mul : F64 → F64 → F64
  | fin a, fin b => round (a * b)
  | fin a, pinf => if a = 0 then nan else if 0 < a then pinf else ninf
  | fin a, ninf => if a = 0 then nan else if 0 < a then ninf else pinf
  | pinf, fin b => if b = 0 then nan else if 0 < b then pinf else ninf
  | ninf, fin b => if b = 0 then nan else if 0 < b then ninf else pinf
  | pinf, pinf => pinf
  | pinf, ninf => ninf
  | ninf, pinf => ninf
  | ninf, ninf => pinf
  | nan, _ => nan
  | _, nan => nan

/-- The operator `+` on `double`. -/
def add : F64 → F64 → F64
  | fin a, fin b => round (a + b)
  | fin _, pinf => pinf
  | fin _, ninf => ninf
  | pinf, fin _ => pinf
  | ninf, fin _ => ninf
  | pinf, pinf => pinf
  | ninf, ninf => ninf
  | pinf, ninf => nan
  | ninf, pinf => nan
  | nan, _ => nan
  | _, nan => nan

/-- The operator `/` on `double`; a zero divisor is read as `+0`. -/
def div : F64 → F64 → F64
  | fin a, fin b =>
    if b = 0 then (if a = 0 then nan else if 0 < a then pinf else ninf) else round (a / b)
  | fin _, pinf => fin 0
  | fin _, ninf => fin 0
  | pinf, fin b => if 0 ≤ b then pinf else ninf
  | ninf, fin b => if 0 ≤ b then ninf else pinf
  | pinf, pinf => nan
  | pinf, ninf => nan
  | ninf, pinf => nan
  | ninf, ninf => nan
  | nan, _ => nan
  | _, nan => nan

/-- The function `std::sqrt` on `double`; `sqrtFin` is the correctly rounded
root of a finite non-negative value. -/
def sqrt (sqrtFin : ℚ → ℚ) : F64 → F64
  | fin q => if q < 0 then nan else fin (sqrtFin q)
  | pinf => pinf
  | ninf => nan
  | nan => nan

/-- The comparison `a < b` on `double`: false as soon as one side is NaN. -/
def lt : F64 → F64 → Bool
  | fin a, fin b => decide (a < b)
  | fin _, pinf => true
  | ninf, fin _ => true
  | ninf, pinf => true
  | _, _ => false

end F64

/-- Source: `Vec2::lengthSq`, in binary64. -/
def Vec2.lengthSq64 (a : Vec2 F64) : F64 := F64.add (F64.mul a.x a.x) (F64.mul a.y a.y)

/-- Source: `Vec2::length`, in binary64. -/
def Vec2.length64 (sqrtFin : ℚ → ℚ) (a : Vec2 F64) : F64 := F64.sqrt sqrtFin a.lengthSq64

/-- Source: `Vec2::normalize`, in binary64. -/
def Vec2.normalize64 (sqrtFin : ℚ → ℚ) (a : Vec2 F64) : Vec2 F64 :=
  let len := a.length64 sqrtFin
  if F64.lt (F64.fin 0) len = true then ⟨F64.div a.x len, F64.div a.y len⟩
  else ⟨F64.fin 0, F64.fin 0⟩

/-! ## Theorems -/

section ResolveLemmas

variable {K : Type} [LinearOrderedField K]

theorem timestep_ne_zero : TIMESTEP K ≠ 0 := by
  unfold TIMESTEP; norm_num

theorem get_velocity_x (b : Ball K) :
    b.get_velocity.x = (b.current_pos.x - b.old_pos.x) * 100 := by
  simp [Ball.get_velocity, Vec2.div, Vec2.sub, TIMESTEP]

theorem get_velocity_y (b : Ball K) :
    b.get_velocity.y = (b.current_pos.y - b.old_pos.y) * 100 := by
  simp [Ball.get_velocity, Vec2.div, Vec2.sub, TIMESTEP]

theorem sqrtAt_pos {sqrt : K → K} {d : K} (hs : SqrtAt sqrt d) (hd : 0 < d) : 0 < sqrt d := by
  rcases hs with ⟨h0, h1⟩
  rcases h0.lt_or_eq with h | h
  · exact h
  · rw [← h] at h1; simp at h1; exact absurd h1.symm (ne_of_gt hd)

/-- The body of `resolve_collision`, read through the named intermediate values. -/
theorem resolve_collision_eq (sqrt : K → K) (a b : Ball K) :
    resolve_collision sqrt a b =
      if distSq a b < (a.radius + b.radius) * (a.radius + b.radius) ∧ distSq a b > 0 then
        if normalDotAfterPush sqrt a b < 0 then
          ((positional_correction sqrt a b).1.set_velocity
              ((positional_correction sqrt a b).1.get_velocity.add
                ((collisionImpulse sqrt a b).scale (1 / a.mass))),
           (positional_correction sqrt a b).2.set_velocity
              ((positional_correction sqrt a b).2.get_velocity.sub
                ((collisionImpulse sqrt a b).scale (1 / b.mass))))
        else positional_correction sqrt a b
      else (a, b) := rfl

theorem get_set_velocity (b : Ball K) (v : Vec2 K) : (b.set_velocity v).get_velocity = v := by
  ext <;> simp [get_velocity_x, get_velocity_y, Ball.set_velocity, Vec2.sub, Vec2.scale, TIMESTEP]

/-- Current positions after `resolve_collision` in the overlapping branch: both
sub-branches (impulse or not) leave the pushed positions in place. -/
theorem resolve_collision_pos (sqrt : K → K) (a b : Ball K)
    (h : distSq a b < (a.radius + b.radius) * (a.radius + b.radius) ∧ distSq a b > 0) :
    (resolve_collision sqrt a b).1.current_pos =
        a.current_pos.add (((a.current_pos.sub b.current_pos).normalize sqrt).scale
          ((a.radius + b.radius - sqrt (distSq a b)) * (b.mass / (a.mass + b.mass)))) ∧
    (resolve_collision sqrt a b).2.current_pos =
        b.current_pos.sub (((a.current_pos.sub b.current_pos).normalize sqrt).scale
          ((a.radius + b.radius - sqrt (distSq a b)) * (a.mass / (a.mass + b.mass)))) := by
  rw [resolve_collision_eq, if_pos h]
  split <;> simp [Ball.set_velocity, positional_correction, collisionNormal, overlapDepth]

/-- The positional correction moves the two particles by opposite momenta. -/
theorem positional_correction_momentum (sqrt : K → K) (a b : Ball K)
    (hma : 0 < a.mass) (hmb : 0 < b.mass) :
    momentum (positional_correction sqrt a b).1 (positional_correction sqrt a b).2 =
      momentum a b := by
  have ha : a.mass ≠ 0 := ne_of_gt hma
  have hb : b.mass ≠ 0 := ne_of_gt hmb
  have hM : a.mass + b.mass ≠ 0 := by positivity
  generalize hn : collisionNormal sqrt a b = n
  generalize ho : overlapDepth sqrt a b = o
  ext
  · simp only [momentum, Vec2.add, Vec2.scale, get_velocity_x, positional_correction,
      Vec2.sub, hn, ho]
    field_simp
    ring
  · simp only [momentum, Vec2.add, Vec2.scale, get_velocity_y, positional_correction,
      Vec2.sub, hn, ho]
    field_simp
    ring

/-- Equal and opposite impulses leave the total momentum unchanged. -/
theorem impulse_momentum (p q : Ball K) (imp : Vec2 K) (hp : p.mass ≠ 0) (hq : q.mass ≠ 0) :
    momentum (p.set_velocity (p.get_velocity.add (imp.scale (1 / p.mass))))
      (q.set_velocity (q.get_velocity.sub (imp.scale (1 / q.mass)))) = momentum p q := by
  unfold momentum
  rw [get_set_velocity, get_set_velocity]
  generalize p.get_velocity = v
  generalize q.get_velocity = w
  ext
  · simp only [Vec2.add, Vec2.scale, Vec2.sub, Ball.set_velocity]
    field_simp
  · simp only [Vec2.add, Vec2.scale, Vec2.sub, Ball.set_velocity]
    field_simp

theorem normalize_axis {sqrt : K → K} {a b : Ball K} (hs : SqrtAt sqrt (distSq a b))
    (hd : 0 < distSq a b) :
    (a.current_pos.sub b.current_pos).normalize sqrt =
      ⟨(a.current_pos.x - b.current_pos.x) / sqrt (distSq a b),
       (a.current_pos.y - b.current_pos.y) / sqrt (distSq a b)⟩ := by
  have hpos := sqrtAt_pos hs hd
  unfold distSq at hpos
  simp only [Vec2.normalize, Vec2.length, distSq, gt_iff_lt, hpos, if_true]
  simp [Vec2.sub]

/-- In the overlapping branch the pushed centres end exactly `min_dist` apart. -/
theorem resolve_collision_separates (sqrt : K → K) (a b : Ball K)
    (hma : 0 < a.mass) (hmb : 0 < b.mass) (hs : SqrtAt sqrt (distSq a b))
    (h : distSq a b < (a.radius + b.radius) * (a.radius + b.radius) ∧ distSq a b > 0) :
    distSq (resolve_collision sqrt a b).1 (resolve_collision sqrt a b).2 =
      (a.radius + b.radius) ^ 2 := by
  obtain ⟨h1, h2⟩ := resolve_collision_pos sqrt a b h
  have hpos := sqrtAt_pos hs h.2
  have hM : a.mass + b.mass ≠ 0 := by positivity
  have hs2 : sqrt (distSq a b) * sqrt (distSq a b) =
      (a.current_pos.x - b.current_pos.x) * (a.current_pos.x - b.current_pos.x) +
      (a.current_pos.y - b.current_pos.y) * (a.current_pos.y - b.current_pos.y) := by
    rw [hs.2]; simp [distSq, Vec2.sub, Vec2.lengthSq]
  rw [distSq, h1, h2, normalize_axis hs h.2]
  generalize sqrt (distSq a b) = s at hpos hs2
  have hs0 : s ≠ 0 := ne_of_gt hpos
  simp only [Vec2.add, Vec2.sub, Vec2.scale, Vec2.lengthSq]
  have ex : a.current_pos.x + (a.current_pos.x - b.current_pos.x) / s *
        ((a.radius + b.radius - s) * (b.mass / (a.mass + b.mass))) -
      (b.current_pos.x - (a.current_pos.x - b.current_pos.x) / s *
        ((a.radius + b.radius - s) * (a.mass / (a.mass + b.mass)))) =
      (a.current_pos.x - b.current_pos.x) * (a.radius + b.radius) / s := by
    field_simp; ring
  have ey : a.current_pos.y + (a.current_pos.y - b.current_pos.y) / s *
        ((a.radius + b.radius - s) * (b.mass / (a.mass + b.mass))) -
      (b.current_pos.y - (a.current_pos.y - b.current_pos.y) / s *
        ((a.radius + b.radius - s) * (a.mass / (a.mass + b.mass)))) =
      (a.current_pos.y - b.current_pos.y) * (a.radius + b.radius) / s := by
    field_simp; ring
  rw [ex, ey]
  have : (a.current_pos.x - b.current_pos.x) * (a.radius + b.radius) / s *
        ((a.current_pos.x - b.current_pos.x) * (a.radius + b.radius) / s) +
      (a.current_pos.y - b.current_pos.y) * (a.radius + b.radius) / s *
        ((a.current_pos.y - b.current_pos.y) * (a.radius + b.radius) / s) =
      ((a.current_pos.x - b.current_pos.x) * (a.current_pos.x - b.current_pos.x) +
        (a.current_pos.y - b.current_pos.y) * (a.current_pos.y - b.current_pos.y)) *
        (a.radius + b.radius) ^ 2 / (s * s) := by
    field_simp; ring
  rw [this, ← hs2]
  field_simp

theorem resolve_collision_noop (sqrt : K → K) (a b : Ball K)
    (h : ¬ (distSq a b < (a.radius + b.radius) * (a.radius + b.radius) ∧ distSq a b > 0)) :
    resolve_collision sqrt a b = (a, b) := by
  unfold distSq at h
  simp only [resolve_collision, h, if_false]

/-- The collision normal has unit length when the square root is exact. -/
theorem collisionNormal_unit {sqrt : K → K} {a b : Ball K} (hs : SqrtAt sqrt (distSq a b))
    (hd : 0 < distSq a b) :
    (collisionNormal sqrt a b).x * (collisionNormal sqrt a b).x +
      (collisionNormal sqrt a b).y * (collisionNormal sqrt a b).y = 1 := by
  have hpos := sqrtAt_pos hs hd
  have hs2 : sqrt (distSq a b) * sqrt (distSq a b) =
      (a.current_pos.x - b.current_pos.x) * (a.current_pos.x - b.current_pos.x) +
      (a.current_pos.y - b.current_pos.y) * (a.current_pos.y - b.current_pos.y) := by
    rw [hs.2]; simp [distSq, Vec2.sub, Vec2.lengthSq]
  rw [collisionNormal, normalize_axis hs hd]
  generalize sqrt (distSq a b) = s at hpos hs2
  have hs0 : s ≠ 0 := ne_of_gt hpos
  simp only
  field_simp
  linarith

/-- The value `n_dot_vrel` in terms of the velocities before the call: the
positional correction adds `overlap / TIMESTEP` to the relative normal velocity. -/
theorem normalDotAfterPush_eq {sqrt : K → K} {a b : Ball K}
    (hma : 0 < a.mass) (hmb : 0 < b.mass) (hs : SqrtAt sqrt (distSq a b))
    (hd : 0 < distSq a b) :
    normalDotAfterPush sqrt a b =
      (a.get_velocity.sub b.get_velocity).dot (collisionNormal sqrt a b) +
        overlapDepth sqrt a b / TIMESTEP K := by
  have hnn := collisionNormal_unit hs hd
  have hM : a.mass + b.mass ≠ 0 := by positivity
  have hr : b.mass / (a.mass + b.mass) + a.mass / (a.mass + b.mass) = 1 := by
    field_simp
    ring
  unfold normalDotAfterPush positional_correction
  generalize collisionNormal sqrt a b = n at hnn ⊢
  generalize overlapDepth sqrt a b = o
  generalize b.mass / (a.mass + b.mass) = r1 at hr
  generalize a.mass / (a.mass + b.mass) = r2 at hr
  simp only [Vec2.dot, Vec2.sub, get_velocity_x, get_velocity_y,
    Vec2.add, Vec2.scale, TIMESTEP, one_div, div_inv_eq_mul]
  linear_combination (100 * o * (n.x * n.x + n.y * n.y)) * hr + (100 * o) * hnn

end ResolveLemmas

/-- What the impulse step of `resolve_collision` computes. The velocities `v1`,
`v2` are read with `get_velocity` after the positional correction has moved
`current_pos`, so the impulse acts on `u`, the relative normal velocity before
the call plus `overlap / TIMESTEP`, and not on the velocity the particles came
in with: the result is `-RESTITUTION * u` when `u < 0` and `u` itself
otherwise; the tangential velocity of each particle is unchanged. -/
theorem resolve_collision_restitution {K : Type} [LinearOrderedField K]
    (sqrt : K → K) (a b : Ball K) (hma : 0 < a.mass) (hmb : 0 < b.mass)
    (hs : SqrtAt sqrt (distSq a b))
    (h : distSq a b < (a.radius + b.radius) * (a.radius + b.radius) ∧ distSq a b > 0) :
    ((resolve_collision sqrt a b).1.get_velocity.sub
        (resolve_collision sqrt a b).2.get_velocity).dot (collisionNormal sqrt a b) =
      (if (a.get_velocity.sub b.get_velocity).dot (collisionNormal sqrt a b) +
            overlapDepth sqrt a b / TIMESTEP K < 0
        then -(RESTITUTION K) * ((a.get_velocity.sub b.get_velocity).dot
            (collisionNormal sqrt a b) + overlapDepth sqrt a b / TIMESTEP K)
        else (a.get_velocity.sub b.get_velocity).dot (collisionNormal sqrt a b) +
            overlapDepth sqrt a b / TIMESTEP K) ∧
    (resolve_collision sqrt a b).1.get_velocity.dot
        ⟨-(collisionNormal sqrt a b).y, (collisionNormal sqrt a b).x⟩ =
      a.get_velocity.dot ⟨-(collisionNormal sqrt a b).y, (collisionNormal sqrt a b).x⟩ ∧
    (resolve_collision sqrt a b).2.get_velocity.dot
        ⟨-(collisionNormal sqrt a b).y, (collisionNormal sqrt a b).x⟩ =
      b.get_velocity.dot ⟨-(collisionNormal sqrt a b).y, (collisionNormal sqrt a b).x⟩ := by
  have hu := normalDotAfterPush_eq hma hmb hs h.2
  have hnn := collisionNormal_unit hs h.2
  have ha : a.mass ≠ 0 := ne_of_gt hma
  have hb : b.mass ≠ 0 := ne_of_gt hmb
  have hab : a.mass + b.mass ≠ 0 := by positivity
  have hinv : 1 / a.mass + 1 / b.mass ≠ 0 := by positivity
  rw [← hu, resolve_collision_eq, if_pos h]
  have hta : (positional_correction sqrt a b).1.get_velocity.dot
        ⟨-(collisionNormal sqrt a b).y, (collisionNormal sqrt a b).x⟩ =
      a.get_velocity.dot ⟨-(collisionNormal sqrt a b).y, (collisionNormal sqrt a b).x⟩ := by
    simp only [Vec2.dot, get_velocity_x, get_velocity_y, positional_correction, Vec2.add,
      Vec2.scale]
    ring
  have htb : (positional_correction sqrt a b).2.get_velocity.dot
        ⟨-(collisionNormal sqrt a b).y, (collisionNormal sqrt a b).x⟩ =
      b.get_velocity.dot ⟨-(collisionNormal sqrt a b).y, (collisionNormal sqrt a b).x⟩ := by
    simp only [Vec2.dot, get_velocity_x, get_velocity_y, positional_correction, Vec2.sub,
      Vec2.scale]
    ring
  split_ifs with hneg
  · simp only [get_set_velocity]
    refine ⟨?_, ?_, ?_⟩
    · have hdef : normalDotAfterPush sqrt a b =
          ((positional_correction sqrt a b).1.get_velocity.sub
            (positional_correction sqrt a b).2.get_velocity).dot (collisionNormal sqrt a b) := rfl
      simp only [collisionImpulse]
      generalize normalDotAfterPush sqrt a b = u at hdef ⊢
      generalize (positional_correction sqrt a b).1.get_velocity = v at hdef ⊢
      generalize (positional_correction sqrt a b).2.get_velocity = w at hdef ⊢
      generalize collisionNormal sqrt a b = n at hnn hdef ⊢
      generalize hj : -(1 + RESTITUTION K) * u / (1 / a.mass + 1 / b.mass) = j
      have hj2 : j * (1 / a.mass + 1 / b.mass) = -(1 + RESTITUTION K) * u := by
        rw [← hj]; field_simp
      simp only [Vec2.dot, Vec2.sub, Vec2.add, Vec2.scale] at hdef ⊢
      linear_combination (-1 : K) * hdef + (n.x * n.x + n.y * n.y) * hj2 -
        ((1 + RESTITUTION K) * u) * hnn
    · rw [← hta]
      simp only [Vec2.dot, Vec2.add, Vec2.scale, collisionImpulse]
      ring
    · rw [← htb]
      simp only [Vec2.dot, Vec2.sub, Vec2.scale, collisionImpulse]
      ring
  · exact ⟨rfl, hta, htb⟩

theorem rat_sqrt_900 : Rat.sqrt 900 = 30 := by
  rw [show (900 : ℚ) = 30 * 30 by norm_num, Rat.sqrt_eq]
  norm_num

theorem headOn_sqrtAt : SqrtAt Rat.sqrt (distSq headOnA headOnB) := by
  have h900 : distSq headOnA headOnB = 900 := by
    norm_num [distSq, headOnA, headOnB, Ball.new, Vec2.sub, Vec2.lengthSq]
  rw [SqrtAt, h900, rat_sqrt_900]
  norm_num

/-- The scenario pair (radius 20, mass 20, centres 30 apart, speeds 50 toward
each other) keeps its tangential velocity. -/
theorem resolve_collision_restitution_witness :
    (resolve_collision Rat.sqrt headOnA headOnB).1.get_velocity.dot
        ⟨-(collisionNormal Rat.sqrt headOnA headOnB).y,
          (collisionNormal Rat.sqrt headOnA headOnB).x⟩ =
      headOnA.get_velocity.dot
        ⟨-(collisionNormal Rat.sqrt headOnA headOnB).y,
          (collisionNormal Rat.sqrt headOnA headOnB).x⟩ :=
  (resolve_collision_restitution Rat.sqrt headOnA headOnB (by norm_num [headOnA, Ball.new])
    (by norm_num [headOnB, Ball.new]) headOn_sqrtAt
    (by norm_num [distSq, headOnA, headOnB, Ball.new, Vec2.sub, Vec2.lengthSq])).2.1

/-- C2 (the code at the failing input): two particles of radius 20 and mass 20,
centres 30 apart, approach head-on with speed 50 each, so the relative normal
velocity is `-100` before the call. After `resolve_collision` they move apart
with axis velocities `450` and `-450` (relative normal velocity `900`), not with
the `0.95 * 100 = 95` of a restitution of `0.95`: the impulse is computed from
velocities read after the positional correction moved `current_pos`. -/
theorem resolve_collision_head_on_scenario :
    (headOnA.get_velocity.sub headOnB.get_velocity).dot
        (collisionNormal Rat.sqrt headOnA headOnB) = -100 ∧
    (resolve_collision Rat.sqrt headOnA headOnB).1.get_velocity = ⟨450, 0⟩ ∧
    (resolve_collision Rat.sqrt headOnA headOnB).2.get_velocity = ⟨-450, 0⟩ ∧
    ((resolve_collision Rat.sqrt headOnA headOnB).1.get_velocity.sub
        (resolve_collision Rat.sqrt headOnA headOnB).2.get_velocity).dot
        (collisionNormal Rat.sqrt headOnA headOnB) ≠ RESTITUTION ℚ * 100 := by
  norm_num [resolve_collision, collisionNormal, headOnA, headOnB, Ball.new, Ball.get_velocity,
    Ball.set_velocity, Vec2.sub, Vec2.add, Vec2.scale, Vec2.div, Vec2.dot, Vec2.lengthSq,
    Vec2.normalize, Vec2.length, TIMESTEP, RESTITUTION, rat_sqrt_900]

/-- C1 (as amended): for particles with positive masses whose centres do not
coincide, after `resolve_collision` the squared distance between the current
positions is at least `(a.radius + b.radius)^2`, and every non-negative root
`d` of that squared distance (the distance itself) is at least
`a.radius + b.radius`. The square root is assumed exact at the squared distance
measured before the call. -/
theorem resolve_collision_non_penetration {K : Type} [LinearOrderedField K]
    (sqrt : K → K) (a b : Ball K) (hma : 0 < a.mass) (hmb : 0 < b.mass)
    (hne : distSq a b ≠ 0) (hs : SqrtAt sqrt (distSq a b)) :
    (a.radius + b.radius) ^ 2 ≤
        distSq (resolve_collision sqrt a b).1 (resolve_collision sqrt a b).2 ∧
    ∀ d : K, 0 ≤ d →
      d * d = distSq (resolve_collision sqrt a b).1 (resolve_collision sqrt a b).2 →
      a.radius + b.radius ≤ d := by
  have key : (a.radius + b.radius) ^ 2 ≤
      distSq (resolve_collision sqrt a b).1 (resolve_collision sqrt a b).2 := by
    by_cases h : distSq a b < (a.radius + b.radius) * (a.radius + b.radius) ∧ distSq a b > 0
    · exact le_of_eq (resolve_collision_separates sqrt a b hma hmb hs h).symm
    · rw [resolve_collision_noop sqrt a b h]
      have hnn : 0 ≤ distSq a b := by
        unfold distSq Vec2.lengthSq
        nlinarith [mul_self_nonneg (a.current_pos.sub b.current_pos).x,
          mul_self_nonneg (a.current_pos.sub b.current_pos).y]
      have hpos : 0 < distSq a b := lt_of_le_of_ne hnn (Ne.symm hne)
      simp only [not_and_or, not_lt] at h
      rcases h with h | h
      · simpa [pow_two] using h
      · exact absurd hpos (not_lt.mpr h)
  refine ⟨key, fun d hd hdd => ?_⟩
  by_contra hlt
  push_neg at hlt
  rw [← hdd] at key
  nlinarith

/-- Witness for C1: the head-on scenario pair, 30 apart with radii 20. -/
theorem resolve_collision_non_penetration_witness :
    (20 + 20 : ℚ) ^ 2 ≤
      distSq (resolve_collision Rat.sqrt headOnA headOnB).1
        (resolve_collision Rat.sqrt headOnA headOnB).2 :=
  (resolve_collision_non_penetration Rat.sqrt headOnA headOnB (by norm_num [headOnA, Ball.new])
    (by norm_num [headOnB, Ball.new])
    (by norm_num [distSq, headOnA, headOnB, Ball.new, Vec2.sub, Vec2.lengthSq])
    headOn_sqrtAt).1

/-- C1 (counterexample): two particles of radius 1 and mass 1 with coincident
centres are left in place by `resolve_collision`, at squared distance 0, below
`(1 + 1)^2`. -/
theorem resolve_collision_coincident_overlap :
    0 < coincidentBall.radius ∧ 0 < coincidentBall.mass ∧
    distSq (resolve_collision Rat.sqrt coincidentBall coincidentBall).1
      (resolve_collision Rat.sqrt coincidentBall coincidentBall).2 = 0 ∧
    ¬ ((coincidentBall.radius + coincidentBall.radius) ^ 2 ≤
      distSq (resolve_collision Rat.sqrt coincidentBall coincidentBall).1
        (resolve_collision Rat.sqrt coincidentBall coincidentBall).2) := by
  norm_num [resolve_collision, coincidentBall, Ball.new, Vec2.sub, Vec2.lengthSq, distSq]

/-- C3: for positive masses the total momentum `m_a v_a + m_b v_b`, velocities
read with `get_velocity`, is the same after `resolve_collision` as before, in
every branch (no overlap, positional push only, push and impulse) and for any
`sqrt`. -/
theorem resolve_collision_momentum {K : Type} [LinearOrderedField K]
    (sqrt : K → K) (a b : Ball K) (hma : 0 < a.mass) (hmb : 0 < b.mass) :
    momentum (resolve_collision sqrt a b).1 (resolve_collision sqrt a b).2 = momentum a b := by
  rw [resolve_collision_eq]
  split_ifs with h hn
  · have h1 : (positional_correction sqrt a b).1.mass = a.mass := rfl
    have h2 : (positional_correction sqrt a b).2.mass = b.mass := rfl
    have key := impulse_momentum (positional_correction sqrt a b).1
      (positional_correction sqrt a b).2 (collisionImpulse sqrt a b)
      (by rw [h1]; exact ne_of_gt hma) (by rw [h2]; exact ne_of_gt hmb)
    rw [h1, h2] at key
    rw [key]
    exact positional_correction_momentum sqrt a b hma hmb
  · exact positional_correction_momentum sqrt a b hma hmb
  · rfl

/-- Witness for C3: the head-on scenario pair. -/
theorem resolve_collision_momentum_witness :
    momentum (resolve_collision Rat.sqrt headOnA headOnB).1
      (resolve_collision Rat.sqrt headOnA headOnB).2 = momentum headOnA headOnB :=
  resolve_collision_momentum Rat.sqrt headOnA headOnB (by norm_num [headOnA, Ball.new])
    (by norm_num [headOnB, Ball.new])

/-- C4 (as amended): after `constrain_bounds`, a particle whose diameter is at
most `WINDOW_WIDTH` has `radius ≤ x ≤ WINDOW_WIDTH - radius`, and one whose
diameter is at most `WINDOW_HEIGHT` has `radius ≤ y ≤ WINDOW_HEIGHT - radius`,
for every input position. -/
theorem constrain_bounds_contained {K : Type} [LinearOrderedField K] (b : Ball K) :
    (2 * b.radius ≤ (WINDOW_WIDTH : K) →
      b.radius ≤ b.constrain_bounds.current_pos.x ∧
      b.constrain_bounds.current_pos.x ≤ (WINDOW_WIDTH : K) - b.radius) ∧
    (2 * b.radius ≤ (WINDOW_HEIGHT : K) →
      b.radius ≤ b.constrain_bounds.current_pos.y ∧
      b.constrain_bounds.current_pos.y ≤ (WINDOW_HEIGHT : K) - b.radius) := by
  have hx : b.constrain_bounds.current_pos.x = b.constrain_x.current_pos.x := by
    unfold Ball.constrain_bounds Ball.constrain_y
    split_ifs <;> simp [Ball.set_velocity]
  have hr : b.constrain_x.radius = b.radius := by
    unfold Ball.constrain_x
    split_ifs <;> simp [Ball.set_velocity]
  constructor
  · intro hw
    rw [hx]
    unfold Ball.constrain_x
    split_ifs with h1 h2
    · simp only [Ball.set_velocity]
      constructor <;> linarith
    · simp only [Ball.set_velocity]
      constructor <;> linarith
    · constructor <;> linarith
  · intro hh
    unfold Ball.constrain_bounds Ball.constrain_y
    rw [hr]
    split_ifs with h1 h2
    · simp only [Ball.set_velocity]
      constructor <;> linarith
    · simp only [Ball.set_velocity]
      constructor <;> linarith
    · constructor <;> linarith

/-- Witness for C4: a radius-20 particle far outside the arena is brought back
inside on both axes. -/
theorem constrain_bounds_contained_witness :
    (20 ≤ strayBall.constrain_bounds.current_pos.x ∧
      strayBall.constrain_bounds.current_pos.x ≤ 800 - 20) ∧
    (20 ≤ strayBall.constrain_bounds.current_pos.y ∧
      strayBall.constrain_bounds.current_pos.y ≤ 600 - 20) := by
  have h := constrain_bounds_contained strayBall
  have hr : strayBall.radius = 20 := rfl
  rw [hr] at h
  norm_num [WINDOW_WIDTH, WINDOW_HEIGHT] at h
  norm_num
  exact h

/-- C4 (counterexample): a particle of radius 500 at the origin is moved to
`x = 500`, which exceeds `WINDOW_WIDTH - radius = 300`. -/
theorem constrain_bounds_huge_escapes :
    hugeBall.constrain_bounds.current_pos.x = 500 ∧
    ¬ (hugeBall.constrain_bounds.current_pos.x ≤ (WINDOW_WIDTH : ℚ) - hugeBall.radius) := by
  norm_num [hugeBall, Ball.new, Ball.constrain_bounds, Ball.constrain_x, Ball.constrain_y,
    Ball.set_velocity, Ball.get_velocity, Vec2.sub, Vec2.scale, Vec2.mul, Vec2.div,
    WINDOW_WIDTH, WINDOW_HEIGHT]

/-! ### Quadtree insertion -/

section InsertLemmas

variable {K : Type} [LinearOrderedField K]

open Quadtree

theorem perm_cons_append_left {α : Type} {X W1 W : List α} {b : α}
    (h : W1.Perm (b :: W)) : (X ++ W1).Perm (b :: (X ++ W)) :=
  (h.append_left X).trans List.perm_middle

theorem tryChildren_ok (heap : Heap K) (b : Ptr)
    (ins : Quadtree K → Option (Bool × Quadtree K))
    (hins : ∀ c r c1, ins c = some (r, c1) → InsertOk heap b c r c1)
    (cs : Children K) (r : Bool) (cs1 : Children K)
    (h : tryChildren ins cs = some (r, cs1)) : ChildrenOk heap b cs r cs1 := by
  obtain ⟨c0, c1, c2, c3⟩ := cs
  unfold tryChildren at h
  simp only at h
  cases h0 : ins c0 with
  | none => simp [h0] at h
  | some p0 =>
    obtain ⟨r0, d0⟩ := p0
    have ok0 := hins c0 r0 d0 h0
    cases r0 with
    | true =>
      simp only [h0, Option.some.injEq, Prod.mk.injEq] at h
      obtain ⟨rfl, rfl⟩ := h
      refine ⟨?_, ?_, ?_, ?_, ?_, ?_⟩
      · simp [← ok0.result]
      · simp [boundaries4, ok0.boundary_eq]
      · intro hf; cases hf
      · have := ok0.perm
        simp only [if_true, allBalls4] at this ⊢
        exact (this.append_right _).trans (by simp)
      · rintro ⟨a0, a1, a2, a3⟩; exact ⟨ok0.contained a0, a1, a2, a3⟩
      · rintro ⟨a0, a1, a2, a3⟩; exact ⟨ok0.quartered a0, a1, a2, a3⟩
    | false =>
      have e0 : d0 = c0 := ok0.unchanged rfl
      subst e0
      simp only [h0] at h
      cases h1 : ins c1 with
      | none => simp [h1] at h
      | some p1 =>
        obtain ⟨r1, d1⟩ := p1
        have ok1 := hins c1 r1 d1 h1
        cases r1 with
        | true =>
          simp only [h1, Option.some.injEq, Prod.mk.injEq] at h
          obtain ⟨rfl, rfl⟩ := h
          refine ⟨?_, ?_, ?_, ?_, ?_, ?_⟩
          · simp [← ok1.result]
          · simp [boundaries4, ok1.boundary_eq]
          · intro hf; cases hf
          · have := ok1.perm
            simp only [if_true, allBalls4] at this ⊢
            exact perm_cons_append_left (this.append_right _)
          · rintro ⟨a0, a1, a2, a3⟩; exact ⟨a0, ok1.contained a1, a2, a3⟩
          · rintro ⟨a0, a1, a2, a3⟩; exact ⟨a0, ok1.quartered a1, a2, a3⟩
        | false =>
          have e1 : d1 = c1 := ok1.unchanged rfl
          subst e1
          simp only [h1] at h
          cases h2 : ins c2 with
          | none => simp [h2] at h
          | some p2 =>
            obtain ⟨r2, d2⟩ := p2
            have ok2 := hins c2 r2 d2 h2
            cases r2 with
            | true =>
              simp only [h2, Option.some.injEq, Prod.mk.injEq] at h
              obtain ⟨rfl, rfl⟩ := h
              refine ⟨?_, ?_, ?_, ?_, ?_, ?_⟩
              · simp [← ok2.result]
              · simp [boundaries4, ok2.boundary_eq]
              · intro hf; cases hf
              · have := ok2.perm
                simp only [if_true, allBalls4] at this ⊢
                exact perm_cons_append_left (perm_cons_append_left (this.append_right _))
              · rintro ⟨a0, a1, a2, a3⟩; exact ⟨a0, a1, ok2.contained a2, a3⟩
              · rintro ⟨a0, a1, a2, a3⟩; exact ⟨a0, a1, ok2.quartered a2, a3⟩
            | false =>
              have e2 : d2 = c2 := ok2.unchanged rfl
              subst e2
              simp only [h2] at h
              cases h3 : ins c3 with
              | none => simp [h3] at h
              | some p3 =>
                obtain ⟨r3, d3⟩ := p3
                have ok3 := hins c3 r3 d3 h3
                simp only [h3, Option.some.injEq, Prod.mk.injEq] at h
                obtain ⟨rfl, rfl⟩ := h
                refine ⟨?_, ?_, ?_, ?_, ?_, ?_⟩
                · simp [← ok0.result, ← ok1.result, ← ok2.result, ← ok3.result]
                · simp [boundaries4, ok3.boundary_eq]
                · intro hf; rw [ok3.unchanged hf]
                · have := ok3.perm
                  cases r3 with
                  | true =>
                    simp only [if_true, allBalls4] at this ⊢
                    exact perm_cons_append_left (perm_cons_append_left
                      (perm_cons_append_left this))
                  | false =>
                    simp only [allBalls4] at this ⊢
                    exact ((this.append_left _).append_left _).append_left _
                · rintro ⟨a0, a1, a2, a3⟩; exact ⟨a0, a1, a2, ok3.contained a3⟩
                · rintro ⟨a0, a1, a2, a3⟩; exact ⟨a0, a1, a2, ok3.quartered a3⟩

theorem redistribute_ok (heap : Heap K)
    (ins : Ptr → Quadtree K → Option (Bool × Quadtree K))
    (hins : ∀ b c r c1, ins b c = some (r, c1) → InsertOk heap b c r c1)
    (old kept : List Ptr) (cs : Children K) (kept1 : List Ptr) (cs1 : Children K)
    (h : redistribute ins old (kept, cs) = some (kept1, cs1)) :
    boundaries4 cs1 = boundaries4 cs ∧
    (kept1 ++ allBalls4 cs1).Perm (old ++ (kept ++ allBalls4 cs)) ∧
    ((cs.1.Contained heap ∧ cs.2.1.Contained heap ∧ cs.2.2.1.Contained heap ∧
        cs.2.2.2.Contained heap) →
      (cs1.1.Contained heap ∧ cs1.2.1.Contained heap ∧ cs1.2.2.1.Contained heap ∧
        cs1.2.2.2.Contained heap)) ∧
    ((cs.1.Quartered ∧ cs.2.1.Quartered ∧ cs.2.2.1.Quartered ∧ cs.2.2.2.Quartered) →
      (cs1.1.Quartered ∧ cs1.2.1.Quartered ∧ cs1.2.2.1.Quartered ∧ cs1.2.2.2.Quartered)) := by
  induction old generalizing kept cs with
  | nil =>
    simp only [redistribute, Option.some.injEq, Prod.mk.injEq] at h
    obtain ⟨rfl, rfl⟩ := h
    exact ⟨rfl, by simp, id, id⟩
  | cons b rest ih =>
    simp only [redistribute] at h
    cases ht : tryChildren (ins b) cs with
    | none => simp [ht] at h
    | some p =>
      obtain ⟨r, cs2⟩ := p
      have ok := tryChildren_ok heap b (ins b) (hins b) cs r cs2 ht
      cases r with
      | true =>
        simp only [ht] at h
        obtain ⟨hb, hp, hc, hq⟩ := ih kept cs2 h
        refine ⟨hb.trans ok.boundary_eq, ?_, fun a => hc (ok.contained a),
          fun a => hq (ok.quartered a)⟩
        have hp2 : (allBalls4 cs2).Perm (b :: allBalls4 cs) := by simpa using ok.perm
        exact hp.trans (perm_cons_append_left (perm_cons_append_left hp2))
      | false =>
        simp only [ht] at h
        have e : cs2 = cs := ok.unchanged rfl
        subst e
        obtain ⟨hb, hp, hc, hq⟩ := ih (kept ++ [b]) cs2 h
        refine ⟨hb, ?_, hc, hq⟩
        refine hp.trans ?_
        rw [List.append_assoc, List.singleton_append]
        exact perm_cons_append_left (perm_cons_append_left (List.Perm.refl _))

theorem contains_half_extents {bd : Boundary K} {x : Ball K} (h : bd.contains x = true) :
    0 ≤ bd.half_width ∧ 0 ≤ bd.half_height := by
  simp only [Boundary.contains, Bool.and_eq_true, decide_eq_true_eq] at h
  obtain ⟨⟨⟨h1, h2⟩, h3⟩, h4⟩ := h
  constructor <;> linarith

/-- Every returning `insert` call satisfies `InsertOk`. -/
theorem insert_ok (heap : Heap K) (fuel : Nat) (t : Quadtree K) (b : Ptr) (r : Bool)
    (t1 : Quadtree K) (h : Quadtree.insert heap fuel t b = some (r, t1)) : InsertOk heap b t r t1 := by
  induction fuel generalizing t b r t1 with
  | zero => simp [Quadtree.insert] at h
  | succ n ih =>
    unfold Quadtree.insert at h
    by_cases hc : t.boundary.contains (heap b) = true
    · simp only [hc, Bool.not_true, Bool.false_eq_true, if_false] at h
      cases t with
      | leaf bd bs =>
        simp only at h
        have hc1 : bd.contains (heap b) = true := hc
        split_ifs at h with hlen
        · simp only [Option.some.injEq, Prod.mk.injEq] at h
          obtain ⟨rfl, rfl⟩ := h
          refine ⟨hc.symm, rfl, (fun hf => by cases hf), ?_, ?_, fun _ => trivial⟩
          · simp only [allBalls, if_true]
            exact List.perm_append_singleton b bs
          · intro hcont x hx
            simp only [Contained] at hcont
            rcases List.mem_append.mp hx with hx | hx
            · exact hcont x hx
            · rw [List.mem_singleton.mp hx]; exact hc1
        · cases hr : redistribute (fun b c => Quadtree.insert heap n c b) bs ([], subdivide bd) with
          | none => simp [hr] at h
          | some p =>
            obtain ⟨kept, cs⟩ := p
            obtain ⟨hb, hp, hcn, hq⟩ := redistribute_ok heap (fun b c => Quadtree.insert heap n c b)
              (fun b c r c1 hh => ih c b r c1 hh) bs [] (subdivide bd) kept cs hr
            simp only [hr] at h
            have hcn0 : cs.1.Contained heap ∧ cs.2.1.Contained heap ∧
                cs.2.2.1.Contained heap ∧ cs.2.2.2.Contained heap :=
              hcn (by simp [subdivide, Contained])
            have hq0 : cs.1.Quartered ∧ cs.2.1.Quartered ∧ cs.2.2.1.Quartered ∧
                cs.2.2.2.Quartered := hq (by simp [subdivide, Quartered])
            have hp0 : (kept ++ allBalls4 cs).Perm bs := by
              simpa [subdivide, allBalls4, allBalls] using hp
            cases ht : tryChildren (fun c => Quadtree.insert heap n c b) cs with
            | none => simp [ht] at h
            | some p2 =>
              obtain ⟨r2, cs2⟩ := p2
              have ok := tryChildren_ok heap b (fun c => Quadtree.insert heap n c b)
                (fun c r c1 hh => ih c b r c1 hh) cs r2 cs2 ht
              have hb2 : boundaries4 cs2 = boundaries4 (subdivide bd) :=
                ok.boundary_eq.trans hb
              simp only [boundaries4, Prod.mk.injEq] at hb2
              obtain ⟨e0, e1, e2, e3⟩ := hb2
              obtain ⟨k0, k1, k2, k3⟩ := ok.contained hcn0
              obtain ⟨q0, q1, q2, q3⟩ := ok.quartered hq0
              obtain ⟨hw, hh⟩ := contains_half_extents hc1
              cases r2 with
              | true =>
                simp only [ht, Option.some.injEq, Prod.mk.injEq] at h
                obtain ⟨rfl, rfl⟩ := h
                have hperm : (kept ++ allBalls4 cs2).Perm (b :: bs) :=
                  (perm_cons_append_left (by simpa using ok.perm)).trans (hp0.cons b)
                refine ⟨hc.symm, rfl, (fun hf => by cases hf), ?_, ?_, ?_⟩
                · simpa [allBalls, allBalls4] using hperm
                · intro hcont
                  simp only [Contained] at hcont ⊢
                  refine ⟨fun x hx => ?_, k0, k1, k2, k3⟩
                  have hx2 : x ∈ b :: bs := hperm.subset hx
                  rcases List.mem_cons.mp hx2 with hx3 | hx3
                  · rw [hx3]; exact hc1
                  · exact hcont x hx3
                · intro _
                  exact ⟨hw, hh, e0, e1, e2, e3, q0, q1, q2, q3⟩
              | false =>
                simp only [ht, Option.some.injEq, Prod.mk.injEq] at h
                obtain ⟨rfl, rfl⟩ := h
                have e : cs2 = cs := ok.unchanged rfl
                have hperm : ((kept ++ [b]) ++ allBalls4 cs2).Perm (b :: bs) := by
                  rw [e, List.append_assoc, List.singleton_append]
                  exact (perm_cons_append_left (List.Perm.refl _)).trans (hp0.cons b)
                refine ⟨hc.symm, rfl, (fun hf => by cases hf), ?_, ?_, ?_⟩
                · simpa [allBalls, allBalls4] using hperm
                · intro hcont
                  simp only [Contained] at hcont ⊢
                  refine ⟨fun x hx => ?_, k0, k1, k2, k3⟩
                  have hx2 : x ∈ b :: bs := hperm.subset hx
                  rcases List.mem_cons.mp hx2 with hx3 | hx3
                  · rw [hx3]; exact hc1
                  · exact hcont x hx3
                · intro _
                  exact ⟨hw, hh, e0, e1, e2, e3, q0, q1, q2, q3⟩
      | node bd bs c0 c1 c2 c3 =>
        simp only at h
        have hc1 : bd.contains (heap b) = true := hc
        cases ht : tryChildren (fun c => Quadtree.insert heap n c b) (c0, c1, c2, c3) with
        | none => simp [ht] at h
        | some p2 =>
          obtain ⟨r2, cs2⟩ := p2
          have ok := tryChildren_ok heap b (fun c => Quadtree.insert heap n c b)
            (fun c r c1 hh => ih c b r c1 hh) (c0, c1, c2, c3) r2 cs2 ht
          have hb2 := ok.boundary_eq
          simp only [boundaries4, Prod.mk.injEq] at hb2
          obtain ⟨e0, e1, e2, e3⟩ := hb2
          cases r2 with
          | true =>
            simp only [ht, Option.some.injEq, Prod.mk.injEq] at h
            obtain ⟨rfl, rfl⟩ := h
            have hperm : (bs ++ allBalls4 cs2).Perm (b :: (bs ++ allBalls4 (c0, c1, c2, c3))) :=
              perm_cons_append_left (by simpa using ok.perm)
            refine ⟨hc.symm, rfl, (fun hf => by cases hf), ?_, ?_, ?_⟩
            · simpa [allBalls, allBalls4] using hperm
            · intro hcont
              simp only [Contained] at hcont ⊢
              obtain ⟨hall, k⟩ := hcont
              obtain ⟨k0, k1, k2, k3⟩ := ok.contained k
              refine ⟨fun x hx => ?_, k0, k1, k2, k3⟩
              have hx2 := hperm.subset hx
              rcases List.mem_cons.mp hx2 with hx3 | hx3
              · rw [hx3]; exact hc1
              · exact hall x hx3
            · intro hqu
              simp only [Quartered] at hqu ⊢
              obtain ⟨hw, hh, f0, f1, f2, f3, q⟩ := hqu
              obtain ⟨q0, q1, q2, q3⟩ := ok.quartered q
              exact ⟨hw, hh, e0.trans f0, e1.trans f1, e2.trans f2, e3.trans f3, q0, q1, q2, q3⟩
          | false =>
            simp only [ht, Option.some.injEq, Prod.mk.injEq] at h
            obtain ⟨rfl, rfl⟩ := h
            have e : cs2 = (c0, c1, c2, c3) := ok.unchanged rfl
            subst e
            refine ⟨hc.symm, rfl, (fun hf => by cases hf), ?_, ?_, ?_⟩
            · simp only [allBalls, if_true, List.append_assoc, List.singleton_append]
              exact perm_cons_append_left (List.Perm.refl _)
            · intro hcont
              simp only [Contained] at hcont ⊢
              obtain ⟨hall, k⟩ := hcont
              refine ⟨fun x hx => ?_, k⟩
              simp only [List.append_assoc, List.singleton_append, List.mem_append,
                List.mem_cons] at hx
              rcases hx with hx | hx | hx
              · exact hall x (List.mem_append_left _ hx)
              · rw [hx]; exact hc1
              · exact hall x (List.mem_append_right _ (by simpa using hx))
            · intro hqu
              simpa only [Quartered] using hqu
    · simp only [hc, Bool.not_false, if_true, Option.some.injEq, Prod.mk.injEq] at h
      obtain ⟨rfl, rfl⟩ := h
      simp only [Bool.not_eq_true] at hc
      exact ⟨hc.symm, rfl, fun _ => rfl, by simp, id, id⟩

end InsertLemmas

/-! ### Building and querying -/

section QueryLemmas

variable {K : Type} [LinearOrderedField K]

open Quadtree

theorem contains_iff (bd : Boundary K) (x : Ball K) :
    bd.contains x = true ↔
      bd.center.x - bd.half_width ≤ x.current_pos.x ∧
      x.current_pos.x ≤ bd.center.x + bd.half_width ∧
      bd.center.y - bd.half_height ≤ x.current_pos.y ∧
      x.current_pos.y ≤ bd.center.y + bd.half_height := by
  simp only [Boundary.contains, Bool.and_eq_true, decide_eq_true_eq, ge_iff_le, and_assoc]

theorem intersects_iff (bd range : Boundary K) :
    bd.intersects range = true ↔
      range.center.x - range.half_width ≤ bd.center.x + bd.half_width ∧
      bd.center.x - bd.half_width ≤ range.center.x + range.half_width ∧
      range.center.y - range.half_height ≤ bd.center.y + bd.half_height ∧
      bd.center.y - bd.half_height ≤ range.center.y + range.half_height := by
  simp only [Boundary.intersects, Bool.not_eq_true', Bool.or_eq_false_iff,
    decide_eq_false_iff_not, not_lt, gt_iff_lt, and_assoc]

/-- Two boundaries that contain the same particle intersect. -/
theorem intersects_of_contains {bd range : Boundary K} {x : Ball K}
    (h1 : bd.contains x = true) (h2 : range.contains x = true) :
    bd.intersects range = true := by
  rw [contains_iff] at h1 h2
  rw [intersects_iff]
  obtain ⟨a1, a2, a3, a4⟩ := h1
  obtain ⟨b1, b2, b3, b4⟩ := h2
  refine ⟨?_, ?_, ?_, ?_⟩ <;> linarith

theorem insertAll_ok (heap : Heap K) (fuel : Nat) (t : Quadtree K) (bs : List Ptr)
    (t1 : Quadtree K) (rs : List Bool) (h : insertAll heap fuel t bs = some (t1, rs)) :
    rs = bs.map (fun b => t.boundary.contains (heap b)) ∧
    t1.boundary = t.boundary ∧
    t1.allBalls.Perm (t.allBalls ++ bs.filter (fun b => t.boundary.contains (heap b))) ∧
    (t.Contained heap → t1.Contained heap) ∧
    (t.Quartered → t1.Quartered) := by
  induction bs generalizing t rs with
  | nil =>
    simp only [insertAll, Option.some.injEq, Prod.mk.injEq] at h
    obtain ⟨rfl, rfl⟩ := h
    simp
  | cons b rest ih =>
    simp only [insertAll] at h
    cases hi : Quadtree.insert heap fuel t b with
    | none => simp [hi] at h
    | some p =>
      obtain ⟨r, t2⟩ := p
      have ok := insert_ok heap fuel t b r t2 hi
      simp only [hi] at h
      cases hr : insertAll heap fuel t2 rest with
      | none => simp [hr] at h
      | some p2 =>
        obtain ⟨t3, rs2⟩ := p2
        simp only [hr, Option.some.injEq, Prod.mk.injEq] at h
        obtain ⟨rfl, rfl⟩ := h
        obtain ⟨h1, h2, h3, h4, h5⟩ := ih t2 rs2 hr
        rw [ok.boundary_eq] at h1 h3
        refine ⟨?_, h2.trans ok.boundary_eq, ?_, fun a => h4 (ok.contained a),
          fun a => h5 (ok.quartered a)⟩
        · rw [h1, ok.result]; rfl
        · refine h3.trans ?_
          have hp := ok.perm
          rw [ok.result] at hp
          by_cases hc : t.boundary.contains (heap b) = true
          · simp only [hc, if_true] at hp
            rw [List.filter_cons_of_pos (by simpa using hc)]
            exact (hp.append_right _).trans (by
              rw [List.cons_append]; exact List.perm_middle.symm)
          · have hc2 : t.boundary.contains (heap b) = false := by simpa using hc
            simp only [hc2, Bool.false_eq_true, if_false] at hp
            rw [List.filter_cons_of_neg (by simp [hc2])]
            exact hp.append_right _

theorem query_append (range : Boundary K) (t : Quadtree K) (found : List Ptr) :
    t.query range found = found ++ t.query range [] := by
  induction t generalizing found with
  | leaf bd bs =>
    simp only [query]
    split <;> simp
  | node bd bs c0 c1 c2 c3 ih0 ih1 ih2 ih3 =>
    simp only [query]
    split
    · simp
    · rw [ih3, ih2, ih1, ih0, ih3 (query range c2 _), ih2 (query range c1 _),
        ih1 (query range c0 _), ih0 ([] ++ bs)]
      simp only [List.append_assoc, List.nil_append]

theorem query_node (range : Boundary K) (bd : Boundary K) (bs : List Ptr)
    (c0 c1 c2 c3 : Quadtree K) :
    (node bd bs c0 c1 c2 c3).query range [] =
      if bd.intersects range then
        bs ++ (c0.query range [] ++ (c1.query range [] ++
          (c2.query range [] ++ c3.query range [])))
      else [] := by
  simp only [query]
  cases hi : bd.intersects range
  · simp
  · simp only [Bool.not_true, Bool.false_eq_true, if_false, if_true, List.nil_append]
    rw [query_append range c3, query_append range c2, query_append range c1,
      query_append range c0]
    simp only [List.append_assoc]

theorem query_leaf (range : Boundary K) (bd : Boundary K) (bs : List Ptr) :
    (leaf bd bs : Quadtree K).query range [] = if bd.intersects range then bs else [] := by
  simp only [query]
  cases hi : bd.intersects range <;> simp

/-- A particle stored in a tree whose particles all lie inside their nodes is
returned by every query whose range contains the particle. -/
theorem mem_query_of_contained (heap : Heap K) (range : Boundary K) (t : Quadtree K)
    (hc : t.Contained heap) (b : Ptr) (hb : b ∈ t.allBalls)
    (hr : range.contains (heap b) = true) : b ∈ t.query range [] := by
  induction t with
  | leaf bd bs =>
    simp only [Contained] at hc
    simp only [allBalls] at hb
    rw [query_leaf, intersects_of_contains (hc b hb) hr]
    simpa using hb
  | node bd bs c0 c1 c2 c3 ih0 ih1 ih2 ih3 =>
    simp only [Contained] at hc
    obtain ⟨hall, k0, k1, k2, k3⟩ := hc
    simp only [allBalls] at hb
    rw [query_node, intersects_of_contains (hall b hb) hr]
    simp only [if_true, List.mem_append] at hb ⊢
    rcases hb with hb | hb | hb | hb | hb
    · exact Or.inl hb
    · exact Or.inr (Or.inl (ih0 k0 hb))
    · exact Or.inr (Or.inr (Or.inl (ih1 k1 hb)))
    · exact Or.inr (Or.inr (Or.inr (Or.inl (ih2 k2 hb))))
    · exact Or.inr (Or.inr (Or.inr (Or.inr (ih3 k3 hb))))

/-- Every query result is stored in the tree. -/
theorem query_subset_allBalls (range : Boundary K) (t : Quadtree K) (b : Ptr)
    (hb : b ∈ t.query range []) : b ∈ t.allBalls := by
  induction t with
  | leaf bd bs =>
    rw [query_leaf] at hb
    split at hb
    · exact hb
    · simp at hb
  | node bd bs c0 c1 c2 c3 ih0 ih1 ih2 ih3 =>
    rw [query_node] at hb
    split at hb
    · simp only [List.mem_append] at hb
      simp only [allBalls, List.mem_append]
      rcases hb with hb | hb | hb | hb | hb
      · exact Or.inl hb
      · exact Or.inr (Or.inl (ih0 hb))
      · exact Or.inr (Or.inr (Or.inl (ih1 hb)))
      · exact Or.inr (Or.inr (Or.inr (Or.inl (ih2 hb))))
      · exact Or.inr (Or.inr (Or.inr (Or.inr (ih3 hb))))
    · simp at hb

end QueryLemmas

/-! ### Unbounded recursion of `insert` on coincident particles -/

section Divergence

variable {K : Type} [LinearOrderedField K]

open Quadtree

/-- The four quadrants of a boundary cover it. -/
theorem subdivide_covers (bd : Boundary K) (x : Ball K) (h : bd.contains x = true) :
    (subdivide bd).1.boundary.contains x = true ∨
    (subdivide bd).2.1.boundary.contains x = true ∨
    (subdivide bd).2.2.1.boundary.contains x = true ∨
    (subdivide bd).2.2.2.boundary.contains x = true := by
  rw [contains_iff] at h
  obtain ⟨a1, a2, a3, a4⟩ := h
  simp only [subdivide, boundary, contains_iff]
  rcases le_total x.current_pos.x bd.center.x with hx | hx <;>
  rcases le_total x.current_pos.y bd.center.y with hy | hy
  · left; refine ⟨?_, ?_, ?_, ?_⟩ <;> linarith
  · right; right; left; refine ⟨?_, ?_, ?_, ?_⟩ <;> linarith
  · right; left; refine ⟨?_, ?_, ?_, ?_⟩ <;> linarith
  · right; right; right; refine ⟨?_, ?_, ?_, ?_⟩ <;> linarith

/-- Inserting into an undivided node below capacity, with depth to spare. -/
theorem insert_leaf_small (heap : Heap K) (m : Nat) (q : Boundary K) (bs : List Ptr) (c : Ptr)
    (hlen : bs.length < QUAD_CAPACITY) :
    Quadtree.insert heap (m + 1) (leaf q bs) c =
      if q.contains (heap c) = true then some (true, leaf q (bs ++ [c]))
      else some (false, leaf q bs) := by
  unfold Quadtree.insert
  by_cases hc : q.contains (heap c) = true
  · simp [boundary, hc, hlen]
  · simp [boundary, hc]

theorem contains_congr (q : Boundary K) (x y : Ball K) (h : x.current_pos = y.current_pos) :
    q.contains x = q.contains y := by
  simp only [Boundary.contains, h]

/-- One level of the recursion: with five particles at the position of `b` in an
undivided node, the redistribution moves all five into the first quadrant that
contains the position, and the insertion of `b` then recurses into that
quadrant, again an undivided node with the same five particles. -/
theorem coincident_step (heap : Heap K) (b c1 c2 c3 c4 c5 : Ptr) (m : Nat)
    (q0 q1 q2 q3 : Boundary K)
    (h1 : (heap c1).current_pos = (heap b).current_pos)
    (h2 : (heap c2).current_pos = (heap b).current_pos)
    (h3 : (heap c3).current_pos = (heap b).current_pos)
    (h4 : (heap c4).current_pos = (heap b).current_pos)
    (h5 : (heap c5).current_pos = (heap b).current_pos)
    (hcover : q0.contains (heap b) = true ∨ q1.contains (heap b) = true ∨
      q2.contains (heap b) = true ∨ q3.contains (heap b) = true)
    (ih : ∀ q : Boundary K, q.contains (heap b) = true →
      Quadtree.insert heap (m + 1) (leaf q [c1, c2, c3, c4, c5]) b = none)
    (kept : List Ptr) (cs : Children K)
    (hr : redistribute (fun b c => Quadtree.insert heap (m + 1) c b) [c1, c2, c3, c4, c5]
      ([], (leaf q0 [], leaf q1 [], leaf q2 [], leaf q3 [])) = some (kept, cs)) :
    tryChildren (fun c => Quadtree.insert heap (m + 1) c b) cs = none := by
  have e1 := fun q : Boundary K => contains_congr q _ _ h1
  have e2 := fun q : Boundary K => contains_congr q _ _ h2
  have e3 := fun q : Boundary K => contains_congr q _ _ h3
  have e4 := fun q : Boundary K => contains_congr q _ _ h4
  have e5 := fun q : Boundary K => contains_congr q _ _ h5
  have hcap : ∀ l : List Ptr, l.length < 5 → l.length < QUAD_CAPACITY := fun l h => h
  by_cases k0 : q0.contains (heap b) = true
  · simp [redistribute, tryChildren, insert_leaf_small, QUAD_CAPACITY, e1, e2, e3, e4, e5,
      k0] at hr
    obtain ⟨rfl, rfl⟩ := hr
    simp [tryChildren, ih q0 k0]
  · by_cases k1 : q1.contains (heap b) = true
    · simp [redistribute, tryChildren, insert_leaf_small, QUAD_CAPACITY, e1, e2, e3, e4, e5,
        k0, k1] at hr
      obtain ⟨rfl, rfl⟩ := hr
      simp [tryChildren, insert_leaf_small, QUAD_CAPACITY, k0, ih q1 k1]
    · by_cases k2 : q2.contains (heap b) = true
      · simp [redistribute, tryChildren, insert_leaf_small, QUAD_CAPACITY, e1, e2, e3, e4, e5,
          k0, k1, k2] at hr
        obtain ⟨rfl, rfl⟩ := hr
        simp [tryChildren, insert_leaf_small, QUAD_CAPACITY, k0, k1, ih q2 k2]
      · have k3 : q3.contains (heap b) = true := by
          rcases hcover with h | h | h | h
          · exact absurd h k0
          · exact absurd h k1
          · exact absurd h k2
          · exact h
        simp [redistribute, tryChildren, insert_leaf_small, QUAD_CAPACITY, e1, e2, e3, e4, e5,
          k0, k1, k2, k3] at hr
        obtain ⟨rfl, rfl⟩ := hr
        simp [tryChildren, insert_leaf_small, QUAD_CAPACITY, k0, k1, k2, ih q3 k3]

/-- With `QUAD_CAPACITY` particles at one position in an undivided node whose
boundary contains that position, `insert` of one more particle at the same
position does not return within any recursion depth. -/
theorem insert_coincident_none (heap : Heap K) (b c1 c2 c3 c4 c5 : Ptr)
    (h1 : (heap c1).current_pos = (heap b).current_pos)
    (h2 : (heap c2).current_pos = (heap b).current_pos)
    (h3 : (heap c3).current_pos = (heap b).current_pos)
    (h4 : (heap c4).current_pos = (heap b).current_pos)
    (h5 : (heap c5).current_pos = (heap b).current_pos)
    (fuel : Nat) (bd : Boundary K) (hbd : bd.contains (heap b) = true) :
    Quadtree.insert heap fuel (leaf bd [c1, c2, c3, c4, c5]) b = none := by
  induction fuel generalizing bd with
  | zero => rfl
  | succ n ih =>
    unfold Quadtree.insert
    simp only [boundary, hbd, Bool.not_true, Bool.false_eq_true, if_false, List.length_cons,
      List.length_nil, QUAD_CAPACITY, Nat.lt_irrefl]
    cases n with
    | zero => simp [redistribute, tryChildren, Quadtree.insert]
    | succ m =>
      cases hr : redistribute (fun b c => Quadtree.insert heap (m + 1) c b)
          [c1, c2, c3, c4, c5] ([], subdivide bd) with
      | none => rfl
      | some p =>
        obtain ⟨kept, cs⟩ := p
        have hcov := subdivide_covers bd (heap b) hbd
        have := coincident_step heap b c1 c2 c3 c4 c5 m _ _ _ _ h1 h2 h3 h4 h5 hcov
          (fun q hq => ih q hq) kept cs hr
        simp only [this]

end Divergence

/-! ### Concrete builds -/

theorem root_boundary_rat : root_boundary ℚ = ⟨⟨400, 300⟩, 400, 300⟩ := by
  norm_num [root_boundary, WINDOW_WIDTH, WINDOW_HEIGHT]

theorem headOn_build :
    Quadtree.insertAll headOnHeap 1 (Quadtree.leaf (root_boundary ℚ) []) [1, 2] =
      some (Quadtree.leaf (root_boundary ℚ) [1, 2], [true, true]) := by
  rw [root_boundary_rat]
  norm_num [Quadtree.insertAll, Quadtree.insert, Quadtree.boundary, Boundary.contains,
    headOnHeap, headOnA, headOnB, Ball.new, QUAD_CAPACITY]

theorem six_build :
    Quadtree.insertAll sixHeap 2 (Quadtree.leaf (root_boundary ℚ) []) [1, 2, 3, 4, 5, 6] =
      some (sixTree, [true, true, true, true, true, true]) := by
  rw [root_boundary_rat]
  norm_num [Quadtree.insertAll, Quadtree.insert, Quadtree.redistribute, Quadtree.tryChildren,
    Quadtree.subdivide, Quadtree.boundary, Boundary.contains, sixHeap, sixTree, Ball.new,
    QUAD_CAPACITY]

section BroadPhaseLemmas

variable {K : Type} [LinearOrderedField K]

open Quadtree

theorem foldl_max_radius (heap : Heap K) (balls : List Ptr) (init : K) :
    init ≤ balls.foldl (fun m b => max m (heap b).radius) init ∧
    ∀ b ∈ balls, (heap b).radius ≤ balls.foldl (fun m b => max m (heap b).radius) init := by
  induction balls generalizing init with
  | nil => simp
  | cons c rest ih =>
    simp only [List.foldl_cons, List.mem_cons]
    obtain ⟨h1, h2⟩ := ih (max init (heap c).radius)
    refine ⟨le_trans (le_max_left _ _) h1, ?_⟩
    rintro b (rfl | hb)
    · exact le_trans (le_max_right _ _) h1
    · exact h2 b hb

theorem radius_le_max_radius (heap : Heap K) (balls : List Ptr) (b : Ptr) (hb : b ∈ balls) :
    (heap b).radius ≤ max_radius heap balls :=
  (foldl_max_radius heap balls 0).2 b hb

theorem mem_zip_map {α β : Type} (f : α → β) (l : List α) (a : α) (r : β)
    (h : (a, r) ∈ l.zip (l.map f)) : a ∈ l ∧ r = f a := by
  induction l with
  | nil => simp at h
  | cons c rest ih =>
    simp only [List.map_cons, List.zip_cons_cons, List.mem_cons, Prod.mk.injEq] at h
    rcases h with ⟨rfl, rfl⟩ | h
    · exact ⟨List.mem_cons_self _ _, rfl⟩
    · exact ⟨List.mem_cons_of_mem _ (ih h).1, (ih h).2⟩

/-- The search square around `b1` contains the centre of every particle of the
collection whose circle overlaps the circle of `b1`. -/
theorem search_range_contains (x y : Ball K) (maxr : K) (hy : y.radius ≤ maxr)
    (hov : distSq x y < (x.radius + y.radius) ^ 2) (hr : 0 ≤ x.radius + y.radius) :
    (search_range x maxr).contains y = true := by
  rw [contains_iff]
  simp only [search_range]
  simp only [distSq, Vec2.sub, Vec2.lengthSq] at hov
  have hx2 : (x.current_pos.x - y.current_pos.x) ^ 2 < (x.radius + y.radius) ^ 2 := by
    nlinarith [mul_self_nonneg (x.current_pos.y - y.current_pos.y)]
  have hy2 : (x.current_pos.y - y.current_pos.y) ^ 2 < (x.radius + y.radius) ^ 2 := by
    nlinarith [mul_self_nonneg (x.current_pos.x - y.current_pos.x)]
  obtain ⟨a1, a2⟩ := abs_lt_of_sq_lt_sq' hx2 hr
  obtain ⟨b1, b2⟩ := abs_lt_of_sq_lt_sq' hy2 hr
  refine ⟨?_, ?_, ?_, ?_⟩ <;> linarith

end BroadPhaseLemmas

/-- C6: in a tree built by `insert` calls from an empty root, with positions
unchanged since, every particle `b2` of the collection that lies inside the
root boundary and whose circle overlaps that of `b1` (squared distance below
`(r1 + r2)^2` with `r1 + r2 ≥ 0`, i.e. distance below `r1 + r2`) is among the
candidates of the query on the square centred at `b1` with half extent
`b1.radius + max_radius`. -/
theorem broad_phase_complete {K : Type} [LinearOrderedField K] (heap : Heap K) (fuel : Nat)
    (bd : Boundary K) (balls : List Ptr) (tree : Quadtree K) (rs : List Bool)
    (hbuild : Quadtree.insertAll heap fuel (Quadtree.leaf bd []) balls = some (tree, rs))
    (b1 b2 : Ptr) (h2 : b2 ∈ balls) (hin : bd.contains (heap b2) = true)
    (hov : distSq (heap b1) (heap b2) < ((heap b1).radius + (heap b2).radius) ^ 2)
    (hr : 0 ≤ (heap b1).radius + (heap b2).radius) :
    b2 ∈ tree.query (search_range (heap b1) (max_radius heap balls)) [] := by
  obtain ⟨_, _, hperm, hcont, _⟩ := insertAll_ok heap fuel _ balls tree rs hbuild
  have hmem : b2 ∈ tree.allBalls := by
    apply hperm.symm.subset
    simp only [Quadtree.allBalls, List.nil_append, Quadtree.boundary]
    exact List.mem_filter.mpr ⟨h2, by simpa using hin⟩
  have hc : tree.Contained heap := hcont (by simp [Quadtree.Contained])
  exact mem_query_of_contained heap _ tree hc b2 hmem
    (search_range_contains _ _ _ (radius_le_max_radius heap balls b2 h2) hov hr)

/-- Witness for C6: the overlapping head-on pair in the arena root; the query
around particle 1 returns particle 2. -/
theorem broad_phase_complete_witness :
    2 ∈ (Quadtree.leaf (root_boundary ℚ) [1, 2]).query
      (search_range (headOnHeap 1) (max_radius headOnHeap [1, 2])) [] :=
  broad_phase_complete headOnHeap 1 (root_boundary ℚ) [1, 2] _ _ headOn_build 1 2 (by simp)
    (by rw [root_boundary_rat]
        norm_num [Boundary.contains, headOnHeap, headOnB, Ball.new])
    (by norm_num [distSq, headOnHeap, headOnA, headOnB, Ball.new, Vec2.sub, Vec2.lengthSq])
    (by norm_num [headOnHeap, headOnA, headOnB, Ball.new])

/-- C7: in a tree built from an empty root by successive `insert` calls, every
particle whose `insert` returned `true` is returned by `query` on the
degenerate range at its own position (half width and half height 0). -/
theorem inserted_retrievable {K : Type} [LinearOrderedField K] (heap : Heap K) (fuel : Nat)
    (bd : Boundary K) (bs : List Ptr) (t : Quadtree K) (rs : List Bool)
    (hbuild : Quadtree.insertAll heap fuel (Quadtree.leaf bd []) bs = some (t, rs))
    (b : Ptr) (hb : (b, true) ∈ bs.zip rs) :
    b ∈ t.query ⟨(heap b).current_pos, 0, 0⟩ [] := by
  obtain ⟨hrs, _, hperm, hcont, _⟩ := insertAll_ok heap fuel _ bs t rs hbuild
  rw [hrs] at hb
  obtain ⟨hmem, hres⟩ := mem_zip_map _ bs b true hb
  have hin : b ∈ t.allBalls := by
    apply hperm.symm.subset
    simp only [Quadtree.allBalls, List.nil_append]
    exact List.mem_filter.mpr ⟨hmem, hres.symm⟩
  have hc : t.Contained heap := hcont (by simp [Quadtree.Contained])
  exact mem_query_of_contained heap _ t hc b hin (by rw [contains_iff]; simp)

/-- Witness for C7: particle 3 of the six-particle build, stored one level down,
is found by the zero-size query at its own position. -/
theorem inserted_retrievable_witness :
    3 ∈ sixTree.query ⟨(sixHeap 3).current_pos, 0, 0⟩ [] :=
  inserted_retrievable sixHeap 2 (root_boundary ℚ) [1, 2, 3, 4, 5, 6] sixTree
    [true, true, true, true, true, true] six_build 3 (by simp)

section Bruteforce

variable {K : Type} [LinearOrderedField K]

theorem resolve_foldl (sqrt : K → K) (p : Ptr) (f : Nat → Ptr) (js : List Nat)
    (st : PassState K) :
    (js.foldl (fun st j => st.resolve sqrt p (f j)) st).calls =
        st.calls ++ js.map (fun j => (p, f j)) ∧
    (js.foldl (fun st j => st.resolve sqrt p (f j)) st).checks = st.checks + js.length := by
  induction js generalizing st with
  | nil => simp
  | cons j rest ih =>
    obtain ⟨h1, h2⟩ := ih (st.resolve sqrt p (f j))
    rw [List.foldl_cons, h1, h2]
    constructor
    · simp [PassState.resolve]
    · simp only [PassState.resolve, List.length_cons]
      omega

theorem bruteforce_foldl (sqrt : K → K) (balls : List Ptr) (is : List Nat) (st : PassState K) :
    (is.foldl (fun st i =>
        (List.range' (i + 1) (balls.length - (i + 1))).foldl
          (fun st j => st.resolve sqrt (balls.getD i 0) (balls.getD j 0)) st) st).calls =
      st.calls ++ (is.flatMap fun i =>
        (List.range' (i + 1) (balls.length - (i + 1))).map fun j => (i, j)).map
          (fun ij => (balls.getD ij.1 0, balls.getD ij.2 0)) ∧
    (is.foldl (fun st i =>
        (List.range' (i + 1) (balls.length - (i + 1))).foldl
          (fun st j => st.resolve sqrt (balls.getD i 0) (balls.getD j 0)) st) st).checks =
      st.checks + (is.flatMap fun i =>
        (List.range' (i + 1) (balls.length - (i + 1))).map fun j => (i, j)).length := by
  induction is generalizing st with
  | nil => simp
  | cons i rest ih =>
    simp only [List.foldl_cons, List.flatMap_cons, List.map_append, List.length_append]
    obtain ⟨h1, h2⟩ := ih ((List.range' (i + 1) (balls.length - (i + 1))).foldl
      (fun st j => st.resolve sqrt (balls.getD i 0) (balls.getD j 0)) st)
    obtain ⟨g1, g2⟩ := resolve_foldl sqrt (balls.getD i 0) (fun j => balls.getD j 0)
      (List.range' (i + 1) (balls.length - (i + 1))) st
    rw [h1, h2, g1, g2]
    simp only [List.map_map, List.append_assoc, List.length_map, List.length_range',
      Nat.add_assoc, Function.comp_def, and_self]

theorem mem_indexPairs (n i j : Nat) : (i, j) ∈ indexPairs n ↔ i < j ∧ j < n := by
  simp only [indexPairs, List.mem_flatMap, List.mem_range, List.mem_map, List.mem_range'_1,
    Prod.mk.injEq]
  constructor
  · rintro ⟨a, ha, b, ⟨hb1, hb2⟩, rfl, rfl⟩
    omega
  · rintro ⟨h1, h2⟩
    exact ⟨i, by omega, j, ⟨by omega, by omega⟩, rfl, rfl⟩

theorem indexPairs_sorted (n : Nat) : (indexPairs n).Pairwise lexLt := by
  unfold indexPairs
  rw [List.pairwise_flatMap]
  constructor
  · intro i _
    rw [List.pairwise_map]
    exact (List.pairwise_lt_range' (i + 1) (n - (i + 1))).imp
      (fun h => Or.inr ⟨rfl, h⟩)
  · refine (List.pairwise_lt_range n).imp ?_
    intro a b hab x hx y hy
    simp only [List.mem_map] at hx hy
    obtain ⟨_, _, rfl⟩ := hx
    obtain ⟨_, _, rfl⟩ := hy
    exact Or.inl hab

theorem indexPairs_length_aux (n k : Nat) (hk : k ≤ n) :
    2 * ((List.range k).flatMap fun i =>
        (List.range' (i + 1) (n - (i + 1))).map fun j => (i, j)).length + k * (k + 1) =
      2 * k * n := by
  induction k with
  | zero => simp
  | succ k ih =>
    have ih2 := ih (by omega)
    rw [List.range_succ, List.flatMap_append, List.length_append]
    simp only [List.flatMap_cons, List.flatMap_nil, List.append_nil, List.length_map,
      List.length_range']
    obtain ⟨d, rfl⟩ := Nat.exists_eq_add_of_le hk
    have e : k + 1 + d - (k + 1) = d := by omega
    rw [e]
    nlinarith

theorem indexPairs_length (n : Nat) : (indexPairs n).length = n * (n - 1) / 2 := by
  have h := indexPairs_length_aux n n (le_refl n)
  unfold indexPairs
  generalize ((List.range n).flatMap fun i =>
    (List.range' (i + 1) (n - (i + 1))).map fun j => (i, j)).length = L at h ⊢
  cases n with
  | zero => simp at h ⊢; omega
  | succ m =>
    simp only [Nat.add_sub_cancel]
    have : (m + 1) * m = 2 * L := by nlinarith
    omega

end Bruteforce

/-- C10: for a collection of `n` particles `handle_collisions_bruteforce` calls
`resolve_collision` on `(balls[i], balls[j])` along the list `indexPairs n`,
which holds exactly the index pairs `i < j < n`, each once, in lexicographic
order, and returns `n (n - 1) / 2`. -/
theorem bruteforce_exhaustive {K : Type} [LinearOrderedField K] (sqrt : K → K)
    (heap : Heap K) (balls : List Ptr) :
    (handle_collisions_bruteforce sqrt heap balls).calls =
      (indexPairs balls.length).map (fun ij => (balls.getD ij.1 0, balls.getD ij.2 0)) ∧
    (∀ i j, (i, j) ∈ indexPairs balls.length ↔ i < j ∧ j < balls.length) ∧
    (indexPairs balls.length).Pairwise lexLt ∧
    (indexPairs balls.length).Nodup ∧
    (handle_collisions_bruteforce sqrt heap balls).checks =
      balls.length * (balls.length - 1) / 2 := by
  obtain ⟨h1, h2⟩ := bruteforce_foldl sqrt balls (List.range balls.length) ⟨heap, 0, []⟩
  refine ⟨?_, mem_indexPairs _, indexPairs_sorted _, ?_, ?_⟩
  · simpa [handle_collisions_bruteforce, indexPairs] using h1
  · refine List.Pairwise.imp ?_ (indexPairs_sorted balls.length)
    intro a b h e
    subst e
    rcases h with h | ⟨_, h⟩ <;> exact lt_irrefl _ h
  · rw [← indexPairs_length]
    simpa [handle_collisions_bruteforce, indexPairs] using h2

/-! ### The two passes on the six-particle configuration -/

theorem sixHeap_far (p q : Ptr) :
    resolve_collision Rat.sqrt (sixHeap p) (sixHeap q) = (sixHeap p, sixHeap q) := by
  apply resolve_collision_noop
  simp only [distSq, sixHeap, Ball.new, Vec2.sub, Vec2.lengthSq]
  split_ifs <;> norm_num

theorem sixHeap_resolve (n : Nat) (cs : List (Ptr × Ptr)) (p q : Ptr) :
    (⟨sixHeap, n, cs⟩ : PassState ℚ).resolve Rat.sqrt p q = ⟨sixHeap, n + 1, cs ++ [(p, q)]⟩ := by
  simp only [PassState.resolve, sixHeap_far, Function.update_eq_self]

theorem six_max_radius : max_radius sixHeap [1, 2, 3, 4, 5, 6] = 1 := by
  norm_num [max_radius, sixHeap, Ball.new]

theorem six_query (b : Ptr) :
    sixTree.query (search_range (sixHeap b) 1) [] =
      if b = 1 ∨ b = 2 ∨ b = 3 ∨ b = 4 ∨ b = 5 then [1, 2, 3, 4, 5] else [6] := by
  simp only [sixTree, query_node, query_leaf, intersects_iff, search_range, sixHeap, Ball.new]
  by_cases h1 : b = 1
  · subst h1; norm_num
  by_cases h2 : b = 2
  · subst h2; norm_num
  by_cases h3 : b = 3
  · subst h3; norm_num
  by_cases h4 : b = 4
  · subst h4; norm_num
  by_cases h5 : b = 5
  · subst h5; norm_num
  simp only [h1, h2, h3, h4, h5, or_self, if_false]
  norm_num

theorem six_quadtree_pass :
    handle_collisions_quadtree Rat.sqrt 2 sixHeap [1, 2, 3, 4, 5, 6] =
      some ⟨sixHeap, 10, [(1, 2), (1, 3), (1, 4), (1, 5), (2, 3), (2, 4), (2, 5), (3, 4),
        (3, 5), (4, 5)]⟩ := by
  simp only [handle_collisions_quadtree, six_build, six_max_radius]
  simp [List.range, List.range.loop, queryStep, six_query, candidateStep, sixHeap_resolve,
    pairKey, toU64]

/-! ### Comparing the two passes -/

section Strategies

variable {K : Type} [LinearOrderedField K]

theorem bruteforce_calls (sqrt : K → K) (heap : Heap K) (balls : List Ptr) :
    (handle_collisions_bruteforce sqrt heap balls).calls =
      (indexPairs balls.length).map (fun ij => (balls.getD ij.1 0, balls.getD ij.2 0)) := by
  obtain ⟨h1, _⟩ := bruteforce_foldl sqrt balls (List.range balls.length) ⟨heap, 0, []⟩
  simpa [handle_collisions_bruteforce, indexPairs] using h1

/-- Every unordered pair of two different particles of the collection is
resolved by the exhaustive pass. -/
theorem bruteforce_mem (sqrt : K → K) (heap : Heap K) (balls : List Ptr) (p q : Ptr)
    (hp : p ∈ balls) (hq : q ∈ balls) (hne : p ≠ q) :
    Sym2.mk (p, q) ∈ unorderedPairs (handle_collisions_bruteforce sqrt heap balls).calls := by
  obtain ⟨i, hi, rfl⟩ := List.getElem_of_mem hp
  obtain ⟨j, hj, rfl⟩ := List.getElem_of_mem hq
  rw [unorderedPairs, bruteforce_calls, List.map_map, List.mem_map]
  have hij : i ≠ j := fun e => hne (by subst e; rfl)
  rcases Nat.lt_or_gt_of_ne hij with h | h
  · refine ⟨(i, j), (mem_indexPairs _ _ _).mpr ⟨h, hj⟩, ?_⟩
    simp [List.getD_eq_getElem, hi, hj]
  · refine ⟨(j, i), (mem_indexPairs _ _ _).mpr ⟨h, hi⟩, ?_⟩
    simp only [Function.comp, List.getD_eq_getElem _ _ hi, List.getD_eq_getElem _ _ hj]
    exact Sym2.eq_swap

theorem pairKey_comm (a b : Ptr) : pairKey a b = pairKey b a := by
  simp only [pairKey, min_comm, max_comm]

theorem candidateStep_inv (sqrt : K → K) (balls : List Ptr) (b1 b2 : Ptr)
    (h1 : b1 ∈ balls) (h2 : b2 ∈ balls) (st : PassState K × List Nat)
    (hinv : PassInv balls st) : PassInv balls (candidateStep sqrt b1 st b2) := by
  unfold candidateStep
  split_ifs with he hk
  · exact hinv
  · exact hinv
  · obtain ⟨hcalls, hnd⟩ := hinv
    constructor
    · intro pq hpq
      simp only [PassState.resolve, List.mem_append, List.mem_singleton] at hpq
      rcases hpq with hpq | rfl
      · obtain ⟨a1, a2, a3, a4⟩ := hcalls pq hpq
        exact ⟨a1, a2, a3, List.mem_cons_of_mem _ a4⟩
      · exact ⟨he, h1, h2, List.mem_cons_self _ _⟩
    · simp only [PassState.resolve, unorderedPairs, List.map_append, List.map_cons,
        List.map_nil]
      rw [List.nodup_append]
      refine ⟨hnd, List.nodup_singleton _, ?_⟩
      intro x hx hx2
      rw [List.mem_singleton] at hx2
      subst hx2
      rw [List.mem_map] at hx
      obtain ⟨⟨p, q⟩, hpq, heq⟩ := hx
      obtain ⟨_, _, _, hkey⟩ := hcalls (p, q) hpq
      apply hk
      rw [Sym2.mk_eq_mk_iff] at heq
      rcases heq with heq | heq
      · simp only [Prod.mk.injEq] at heq
        rw [← heq.1, ← heq.2]; exact hkey
      · simp only [Prod.swap_prod_mk, Prod.mk.injEq] at heq
        rw [← heq.1, ← heq.2, pairKey_comm]; exact hkey

theorem candidates_inv (sqrt : K → K) (balls : List Ptr) (b1 : Ptr) (h1 : b1 ∈ balls)
    (cands : List Ptr) (hc : ∀ c ∈ cands, c ∈ balls) (st : PassState K × List Nat)
    (hinv : PassInv balls st) : PassInv balls (cands.foldl (candidateStep sqrt b1) st) := by
  induction cands generalizing st with
  | nil => exact hinv
  | cons c rest ih =>
    rw [List.foldl_cons]
    exact ih (fun x hx => hc x (List.mem_cons_of_mem _ hx)) _
      (candidateStep_inv sqrt balls b1 c h1 (hc c (List.mem_cons_self _ _)) st hinv)

theorem queries_inv (sqrt : K → K) (balls : List Ptr) (tree : Quadtree K) (maxr : K)
    (htree : ∀ c ∈ tree.allBalls, c ∈ balls) (is : List Nat)
    (his : ∀ i ∈ is, i < balls.length) (st : PassState K × List Nat)
    (hinv : PassInv balls st) :
    PassInv balls (is.foldl (queryStep sqrt tree maxr balls) st) := by
  induction is generalizing st with
  | nil => exact hinv
  | cons i rest ih =>
    rw [List.foldl_cons]
    refine ih (fun x hx => his x (List.mem_cons_of_mem _ hx)) _ ?_
    unfold queryStep
    have hi := his i (List.mem_cons_self _ _)
    refine candidates_inv sqrt balls _ ?_ _ ?_ st hinv
    · rw [List.getD_eq_getElem _ _ hi]; exact List.getElem_mem hi
    · intro c hc
      exact htree c (query_subset_allBalls _ tree c hc)

/-- The indexed pass keeps `PassInv`. -/
theorem quadtree_pass_inv (sqrt : K → K) (fuel : Nat) (heap : Heap K) (balls : List Ptr)
    (st : PassState K) (hq : handle_collisions_quadtree sqrt fuel heap balls = some st) :
    (∀ pq ∈ st.calls, pq.1 ≠ pq.2 ∧ pq.1 ∈ balls ∧ pq.2 ∈ balls) ∧
    (unorderedPairs st.calls).Nodup := by
  unfold handle_collisions_quadtree at hq
  cases hb : Quadtree.insertAll heap fuel (Quadtree.leaf (root_boundary K) []) balls with
  | none => simp [hb] at hq
  | some p =>
    obtain ⟨tree, rs⟩ := p
    simp only [hb, Option.some.injEq] at hq
    obtain ⟨_, _, hperm, _, _⟩ := insertAll_ok heap fuel _ balls tree rs hb
    have htree : ∀ c ∈ tree.allBalls, c ∈ balls := by
      intro c hc
      have := hperm.subset hc
      simp only [Quadtree.allBalls, List.nil_append] at this
      exact (List.mem_filter.mp this).1
    have hinv := queries_inv sqrt balls tree (max_radius heap balls) htree
      (List.range balls.length) (fun i hi => List.mem_range.mp hi) (⟨heap, 0, []⟩, [])
      ⟨by simp, by simp [unorderedPairs]⟩
    obtain ⟨h1, h2⟩ := hinv
    rw [hq] at h1 h2
    exact ⟨fun pq hpq => ⟨(h1 pq hpq).1, (h1 pq hpq).2.1, (h1 pq hpq).2.2.1⟩, h2⟩

end Strategies

/-- C9 (the code at the failing input): the arena root holding five particles
at `(100, 0)` is reached by five `insert` calls, its boundary contains the
position of a sixth particle at `(100, 0)`, and `insert` of that particle
returns within no recursion depth. -/
theorem insert_sixth_coincident_diverges :
    Quadtree.insertAll stackHeap 1 (Quadtree.leaf (root_boundary ℚ) []) [1, 2, 3, 4, 5] =
      some (Quadtree.leaf (root_boundary ℚ) [1, 2, 3, 4, 5], [true, true, true, true, true]) ∧
    (root_boundary ℚ).contains (stackHeap 6) = true ∧
    ∀ fuel : Nat,
      Quadtree.insert stackHeap fuel (Quadtree.leaf (root_boundary ℚ) [1, 2, 3, 4, 5]) 6 =
        none := by
  have hc : (root_boundary ℚ).contains (stackHeap 6) = true := by
    rw [root_boundary_rat]
    norm_num [Boundary.contains, stackHeap, Ball.new]
  refine ⟨?_, hc, fun fuel => ?_⟩
  · rw [root_boundary_rat]
    norm_num [Quadtree.insertAll, Quadtree.insert, Quadtree.boundary, Boundary.contains,
      stackHeap, Ball.new, QUAD_CAPACITY]
  · exact insert_coincident_none stackHeap 6 1 2 3 4 5 rfl rfl rfl rfl rfl fuel _ hc

/-! ### No-op, vector division and velocity view -/

/-- C12: when the pair does not overlap (`distSq ≥ (r_a + r_b)^2`) or the
centres coincide (`distSq = 0`), `resolve_collision` returns both particles
unchanged in every field, a second call on the result changes nothing either,
and on the heap the statement leaves every particle as it was. -/
theorem resolve_collision_noop_idempotent {K : Type} [LinearOrderedField K]
    (sqrt : K → K) (a b : Ball K)
    (h : (a.radius + b.radius) ^ 2 ≤ distSq a b ∨ distSq a b = 0) :
    resolve_collision sqrt a b = (a, b) ∧
    resolve_collision sqrt (resolve_collision sqrt a b).1 (resolve_collision sqrt a b).2 =
      (a, b) ∧
    ∀ (st : PassState K) (p q : Ptr), st.heap p = a → st.heap q = b →
      (st.resolve sqrt p q).heap = st.heap := by
  have hno : ¬ (distSq a b < (a.radius + b.radius) * (a.radius + b.radius) ∧ distSq a b > 0) := by
    rintro ⟨h1, h2⟩
    rcases h with h | h
    · rw [pow_two] at h
      exact absurd h1 (not_lt.mpr h)
    · exact absurd h (ne_of_gt h2)
  have e := resolve_collision_noop sqrt a b hno
  refine ⟨e, ?_, ?_⟩
  · rw [e]; exact e
  · intro st p q hp hq
    simp only [PassState.resolve, hp, hq, e]
    rw [← hp, Function.update_eq_self, ← hq, Function.update_eq_self]

/-- Witness for C12: two radius-1 particles 50 apart in the six-particle heap. -/
theorem resolve_collision_noop_idempotent_witness :
    resolve_collision Rat.sqrt (sixHeap 1) (sixHeap 2) = (sixHeap 1, sixHeap 2) :=
  (resolve_collision_noop_idempotent Rat.sqrt (sixHeap 1) (sixHeap 2)
    (Or.inl (by norm_num [distSq, sixHeap, Ball.new, Vec2.sub, Vec2.lengthSq]))).1

/-! ### `normalize` at the ends of the binary64 range -/

theorem round_zero : F64.round 0 = F64.fin 0 := by
  simp [F64.round]

theorem roundEven_intCast (z : ℤ) : F64.roundEven (z : ℚ) = z := by
  unfold F64.roundEven
  rw [Int.floor_intCast]
  simp

/-- Results of magnitude `2^1024` or more round to an infinity. -/
theorem round_overflow (q : ℚ) (h : (2 : ℚ) ^ 1024 ≤ q) : F64.round q = F64.pinf := by
  have hpos : 0 < q := lt_of_lt_of_le (by positivity) h
  unfold F64.round
  rw [if_neg (ne_of_gt hpos), if_pos (by rwa [abs_of_pos hpos]), if_pos hpos]

/-- Positive results below `2^-1075`, half the least subnormal, round to zero. -/
theorem round_underflow (q : ℚ) (h0 : 0 < q) (h : q < (2 : ℚ) ^ (-1075 : ℤ)) :
    F64.round q = F64.fin 0 := by
  have habs : |q| = q := abs_of_pos h0
  have hlog : Int.log 2 q < -1075 := by
    have := (Int.lt_zpow_iff_log_lt (R := ℚ) (b := 2) (by norm_num) h0 (x := -1075)).mp
      (by rw [Nat.cast_ofNat]; exact h)
    exact this
  have hsmall : q < (2 : ℚ) ^ 1024 := by
    refine lt_trans h (lt_of_lt_of_le (b := (1 : ℚ)) ?_ (one_le_pow₀ (by norm_num)))
    exact zpow_lt_one_of_neg₀ (by norm_num) (by norm_num)
  have hexp : max (Int.log 2 q) (-1022) - 52 = -1074 := by
    rw [max_eq_right (by omega)]; norm_num
  have hu : (0 : ℚ) < (2 : ℚ) ^ (-1074 : ℤ) := by positivity
  have hfrac : q / (2 : ℚ) ^ (-1074 : ℤ) < 1 / 2 := by
    rw [div_lt_iff₀ hu]
    have : (1 / 2 : ℚ) * (2 : ℚ) ^ (-1074 : ℤ) = (2 : ℚ) ^ (-1075 : ℤ) := by
      rw [show (-1075 : ℤ) = -1074 + (-1) by norm_num, zpow_add₀ (by norm_num)]
      simp
      ring
    rw [this]; exact h
  have hfloor : ⌊q / (2 : ℚ) ^ (-1074 : ℤ)⌋ = 0 := by
    rw [Int.floor_eq_iff]
    refine ⟨by simpa using (div_pos h0 hu).le, ?_⟩
    have : q / (2 : ℚ) ^ (-1074 : ℤ) < 1 := lt_trans hfrac (by norm_num)
    simpa using this
  have hre : F64.roundEven (q / (2 : ℚ) ^ (-1074 : ℤ)) = 0 := by
    unfold F64.roundEven
    rw [hfloor, if_pos (by simpa using hfrac)]
  unfold F64.round
  rw [if_neg (ne_of_gt h0), habs, if_neg (not_le.mpr hsmall)]
  simp only [hexp, hre]
  simp

/-- The powers `2^z` with `-1022 ≤ z < 1024` are values of `double`. -/
theorem round_two_zpow (z : ℤ) (hlo : -1022 ≤ z) (hhi : z < 1024) :
    F64.round ((2 : ℚ) ^ z) = F64.fin ((2 : ℚ) ^ z) := by
  have hpos : (0 : ℚ) < 2 ^ z := by positivity
  have habs : |(2 : ℚ) ^ z| = 2 ^ z := abs_of_pos hpos
  have hlog : Int.log 2 ((2 : ℚ) ^ z) = z := by
    have := Int.log_zpow (R := ℚ) (b := 2) (by norm_num) z
    rwa [Nat.cast_ofNat] at this
  have hlt : ¬ ((2 : ℚ) ^ 1024 ≤ (2 : ℚ) ^ z) := by
    rw [not_le, ← zpow_natCast]
    exact zpow_lt_zpow_right₀ (by norm_num) (by simpa using hhi)
  have hexp : max z (-1022) - 52 = z - 52 := by rw [max_eq_left hlo]
  have hq : (2 : ℚ) ^ z / (2 : ℚ) ^ (z - 52) = (((2 : ℤ) ^ 52 : ℤ) : ℚ) := by
    rw [← zpow_sub₀ (by norm_num)]
    rw [show z - (z - 52) = ((52 : ℕ) : ℤ) by push_cast; ring, zpow_natCast]
    push_cast
    rfl
  have hback : ((((2 : ℤ) ^ 52 : ℤ) : ℚ)) * (2 : ℚ) ^ (z - 52) = (2 : ℚ) ^ z := by
    rw [← hq]
    field_simp
  unfold F64.round
  rw [if_neg (ne_of_gt hpos), habs, if_neg hlt]
  simp only [hlog, hexp, hq, roundEven_intCast, hback, habs, if_neg hlt]

theorem lengthSq64_mk (a b : ℚ) :
    Vec2.lengthSq64 ⟨F64.fin a, F64.fin b⟩ = F64.add (F64.round (a * a)) (F64.round (b * b)) :=
  rfl

theorem add_pinf_fin (b : ℚ) : F64.add F64.pinf (F64.fin b) = F64.pinf := rfl

theorem add_fin_fin (a b : ℚ) : F64.add (F64.fin a) (F64.fin b) = F64.round (a + b) := rfl

theorem div_fin_pinf (a : ℚ) : F64.div (F64.fin a) F64.pinf = F64.fin 0 := rfl

/-- A squared length of `+inf` makes `normalize` divide each component by `+inf`. -/
theorem normalize64_of_lengthSq_pinf (sqrtFin : ℚ → ℚ) (a : Vec2 F64)
    (h : a.lengthSq64 = F64.pinf) :
    a.normalize64 sqrtFin = ⟨F64.div a.x F64.pinf, F64.div a.y F64.pinf⟩ := by
  simp only [Vec2.normalize64, Vec2.length64, h, F64.sqrt, F64.lt, if_true]

/-- A squared length of zero makes `normalize` take the `len > 0` false branch. -/
theorem normalize64_of_lengthSq_zero (sqrtFin : ℚ → ℚ) (a : Vec2 F64)
    (h : a.lengthSq64 = F64.fin 0) (h0 : sqrtFin 0 = 0) :
    a.normalize64 sqrtFin = ⟨F64.fin 0, F64.fin 0⟩ := by
  simp [Vec2.normalize64, Vec2.length64, h, F64.sqrt, F64.lt, h0]

theorem lengthSq64_overflow :
    Vec2.lengthSq64 ⟨F64.fin ((2 : ℚ) ^ (600 : ℤ)), F64.fin 0⟩ = F64.pinf := by
  have h2 : (0 : ℚ) < 2 := by norm_num
  have hsum : ((1024 : ℕ) : ℤ) ≤ 600 + 600 := by norm_num
  have h : (2 : ℚ) ^ 1024 ≤ (2 : ℚ) ^ (600 : ℤ) * (2 : ℚ) ^ (600 : ℤ) := by
    rw [← zpow_add₀ (ne_of_gt h2), ← zpow_natCast]
    exact zpow_le_zpow_right₀ (by norm_num) hsum
  rw [lengthSq64_mk, round_overflow _ h, mul_zero, round_zero, add_pinf_fin]

theorem lengthSq64_underflow :
    Vec2.lengthSq64 ⟨F64.fin ((2 : ℚ) ^ (-600 : ℤ)), F64.fin 0⟩ = F64.fin 0 := by
  have h2 : (0 : ℚ) < 2 := by norm_num
  have hsum : (-600 : ℤ) + -600 < -1075 := by omega
  have h : (2 : ℚ) ^ (-600 : ℤ) * (2 : ℚ) ^ (-600 : ℤ) < (2 : ℚ) ^ (-1075 : ℤ) := by
    rw [← zpow_add₀ (ne_of_gt h2)]
    exact zpow_lt_zpow_right₀ (by norm_num) hsum
  have hp : (0 : ℚ) < (2 : ℚ) ^ (-600 : ℤ) * (2 : ℚ) ^ (-600 : ℤ) :=
    mul_pos (zpow_pos h2 _) (zpow_pos h2 _)
  rw [lengthSq64_mk, round_underflow _ hp h, mul_zero, round_zero, add_fin_fin, add_zero,
    round_zero]

/-- C15 (counterexample): `(2^600, 0)` and `(2^-600, 0)` are non-zero vectors of
`double` values, and `normalize` returns the zero vector for both: the squared
length `x*x + y*y` overflows to `+inf` for the first, so each component is
divided by `+inf`, and rounds to zero for the second, so `len > 0` fails. -/
theorem normalize64_out_of_range :
    F64.round ((2 : ℚ) ^ (600 : ℤ)) = F64.fin ((2 : ℚ) ^ (600 : ℤ)) ∧
    F64.round ((2 : ℚ) ^ (-600 : ℤ)) = F64.fin ((2 : ℚ) ^ (-600 : ℤ)) ∧
    (⟨F64.fin ((2 : ℚ) ^ (600 : ℤ)), F64.fin 0⟩ : Vec2 F64) ≠ ⟨F64.fin 0, F64.fin 0⟩ ∧
    (⟨F64.fin ((2 : ℚ) ^ (-600 : ℤ)), F64.fin 0⟩ : Vec2 F64) ≠ ⟨F64.fin 0, F64.fin 0⟩ ∧
    Vec2.normalize64 Rat.sqrt ⟨F64.fin ((2 : ℚ) ^ (600 : ℤ)), F64.fin 0⟩ =
      ⟨F64.fin 0, F64.fin 0⟩ ∧
    Vec2.normalize64 Rat.sqrt ⟨F64.fin ((2 : ℚ) ^ (-600 : ℤ)), F64.fin 0⟩ =
      ⟨F64.fin 0, F64.fin 0⟩ := by
  have hne : ∀ z : ℤ, (⟨F64.fin ((2 : ℚ) ^ z), F64.fin 0⟩ : Vec2 F64) ≠
      ⟨F64.fin 0, F64.fin 0⟩ := by
    intro z h
    have h1 : F64.fin ((2 : ℚ) ^ z) = F64.fin 0 := congrArg Vec2.x h
    have h2 : (2 : ℚ) ^ z = 0 := F64.fin.inj h1
    exact (ne_of_gt (zpow_pos (by norm_num) z)) h2
  have hs0 : Rat.sqrt 0 = 0 := by simp
  refine ⟨round_two_zpow _ (by omega) (by omega),
    round_two_zpow _ (by omega) (by omega), hne _, hne _, ?_, ?_⟩
  · rw [normalize64_of_lengthSq_pinf _ _ lengthSq64_overflow, div_fin_pinf, div_fin_pinf]
  · exact normalize64_of_lengthSq_zero _ _ lengthSq64_underflow hs0

/-- C15 (as amended): in exact arithmetic, `v / 0` is the zero vector and `v / s`
is `(v.x / s, v.y / s)` for `s ≠ 0`; `normalize` of the zero vector is the zero
vector, and for a non-zero `v` the components of `normalize v` satisfy
`x*x + y*y = 1`, and `v` is `normalize v` multiplied by a positive `c` with
`c*c = v.x*v.x + v.y*v.y` (same direction); measured with `length`, the result
has length 1 and `v` is the result scaled by `length v > 0`. The square root is
assumed exact at `|v|^2` and at `1`. -/
theorem vec2_div_normalize {K : Type} [LinearOrderedField K] (sqrt : K → K) (v : Vec2 K)
    (s : K) (hs : SqrtAt sqrt v.lengthSq) (h1 : SqrtAt sqrt 1) :
    v.div 0 = ⟨0, 0⟩ ∧
    (s ≠ 0 → v.div s = ⟨v.x / s, v.y / s⟩) ∧
    (v = ⟨0, 0⟩ → v.normalize sqrt = ⟨0, 0⟩) ∧
    (v ≠ ⟨0, 0⟩ →
      (v.normalize sqrt).x * (v.normalize sqrt).x +
        (v.normalize sqrt).y * (v.normalize sqrt).y = 1 ∧
      (∃ c : K, 0 < c ∧ c * c = v.x * v.x + v.y * v.y ∧
        v.x = (v.normalize sqrt).x * c ∧ v.y = (v.normalize sqrt).y * c) ∧
      (v.normalize sqrt).length sqrt = 1 ∧ 0 < v.length sqrt ∧
      v = (v.normalize sqrt).scale (v.length sqrt)) := by
  refine ⟨by simp [Vec2.div], fun h => by simp [Vec2.div, h], ?_, ?_⟩
  · intro hv
    subst hv
    have h0 : sqrt 0 = 0 := by
      have := hs.2
      simp only [Vec2.lengthSq, mul_zero, add_zero] at this
      exact mul_self_eq_zero.mp this
    simp [Vec2.normalize, Vec2.length, Vec2.lengthSq, h0]
  · intro hv
    have hpos : 0 < v.lengthSq := by
      have hnn : 0 ≤ v.lengthSq := by
        unfold Vec2.lengthSq
        nlinarith [mul_self_nonneg v.x, mul_self_nonneg v.y]
      rcases hnn.lt_or_eq with h | h
      · exact h
      · exfalso
        apply hv
        unfold Vec2.lengthSq at h
        have hx : v.x * v.x = 0 := by nlinarith [mul_self_nonneg v.x, mul_self_nonneg v.y]
        have hy : v.y * v.y = 0 := by nlinarith [mul_self_nonneg v.x, mul_self_nonneg v.y]
        ext
        · exact mul_self_eq_zero.mp hx
        · exact mul_self_eq_zero.mp hy
    have hlen : 0 < sqrt v.lengthSq := sqrtAt_pos hs hpos
    have hne : sqrt v.lengthSq ≠ 0 := ne_of_gt hlen
    have hn : v.normalize sqrt = ⟨v.x / sqrt v.lengthSq, v.y / sqrt v.lengthSq⟩ := by
      simp [Vec2.normalize, Vec2.length, hlen]
    have hsq : sqrt v.lengthSq * sqrt v.lengthSq = v.x * v.x + v.y * v.y := hs.2
    have hone : sqrt 1 = 1 := by
      obtain ⟨a1, a2⟩ := h1
      nlinarith
    have hunit : (⟨v.x / sqrt v.lengthSq, v.y / sqrt v.lengthSq⟩ : Vec2 K).lengthSq = 1 := by
      generalize sqrt v.lengthSq = l at hne hsq
      simp only [Vec2.lengthSq]
      field_simp
      linarith
    refine ⟨?_, ⟨sqrt v.lengthSq, hlen, hsq, ?_, ?_⟩, ?_, hlen, ?_⟩
    · rw [hn]
      exact hunit
    · rw [hn]
      simp [hne]
    · rw [hn]
      simp [hne]
    · rw [hn, Vec2.length, hunit, hone]
    · rw [hn]
      ext <;> simp [Vec2.scale, Vec2.length, hne]

/-- Witness for C15: the vector `(3, 4)` with `Rat.sqrt`; its normalisation
`(3/5, 4/5)` satisfies `x*x + y*y = 1`. -/
theorem vec2_div_normalize_witness :
    (⟨3, 4⟩ : Vec2 ℚ).div 0 = ⟨0, 0⟩ ∧
    ((⟨3, 4⟩ : Vec2 ℚ).normalize Rat.sqrt).x * ((⟨3, 4⟩ : Vec2 ℚ).normalize Rat.sqrt).x +
      ((⟨3, 4⟩ : Vec2 ℚ).normalize Rat.sqrt).y * ((⟨3, 4⟩ : Vec2 ℚ).normalize Rat.sqrt).y = 1 :=
  ⟨(vec2_div_normalize Rat.sqrt ⟨3, 4⟩ 2
    (by rw [SqrtAt, show (⟨3, 4⟩ : Vec2 ℚ).lengthSq = 5 * 5 by norm_num [Vec2.lengthSq],
          Rat.sqrt_eq]; norm_num)
    (by rw [SqrtAt, show (1 : ℚ) = 1 * 1 by norm_num, Rat.sqrt_eq]; norm_num)).1,
   ((vec2_div_normalize Rat.sqrt ⟨3, 4⟩ 2
    (by rw [SqrtAt, show (⟨3, 4⟩ : Vec2 ℚ).lengthSq = 5 * 5 by norm_num [Vec2.lengthSq],
          Rat.sqrt_eq]; norm_num)
    (by rw [SqrtAt, show (1 : ℚ) = 1 * 1 by norm_num, Rat.sqrt_eq]; norm_num)).2.2.2
      (by simp)).1⟩

/-- C16: `set_velocity v` rewrites `old_pos` to `current_pos - v * TIMESTEP` and
leaves `current_pos`, `acceleration`, `radius` and `mass` alone; `get_velocity`
afterwards returns `v`; a newly constructed particle reports its initial
velocity. -/
theorem velocity_round_trip {K : Type} [LinearOrderedField K] (b : Ball K)
    (v pos : Vec2 K) (r m : K) :
    (b.set_velocity v).old_pos = b.current_pos.sub (v.scale (TIMESTEP K)) ∧
    (b.set_velocity v).current_pos = b.current_pos ∧
    (b.set_velocity v).acceleration = b.acceleration ∧
    (b.set_velocity v).radius = b.radius ∧
    (b.set_velocity v).mass = b.mass ∧
    (b.set_velocity v).get_velocity = v ∧
    (Ball.new pos v r m).get_velocity = v := by
  refine ⟨rfl, rfl, rfl, rfl, rfl, get_set_velocity b v, ?_⟩
  ext <;> simp [get_velocity_x, get_velocity_y, Ball.new, Vec2.sub, Vec2.scale, TIMESTEP]

/-! ### Wall reflection and construction -/

section WallLemmas

variable {K : Type} [LinearOrderedField K]

theorem constrain_x_frame (b : Ball K) :
    b.constrain_x.current_pos.y = b.current_pos.y ∧ b.constrain_x.radius = b.radius ∧
    b.constrain_x.get_velocity.y = b.get_velocity.y := by
  unfold Ball.constrain_x
  split_ifs <;>
  simp [get_velocity_y, Ball.set_velocity, Vec2.sub, Vec2.scale, Vec2.mul, TIMESTEP]

theorem constrain_y_frame (b : Ball K) :
    b.constrain_y.current_pos.x = b.current_pos.x ∧
    b.constrain_y.get_velocity.x = b.get_velocity.x := by
  unfold Ball.constrain_y
  split_ifs <;>
  simp [get_velocity_x, Ball.set_velocity, Vec2.sub, Vec2.scale, Vec2.mul, TIMESTEP]

theorem constrain_x_velocity (b : Ball K) :
    ((b.current_pos.x - b.radius < 0 ∨ b.current_pos.x + b.radius > (WINDOW_WIDTH : K)) →
      b.constrain_x.get_velocity.x = -(WALL_RESTITUTION K) *
        (b.get_velocity.x + (b.constrain_x.current_pos.x - b.current_pos.x) / TIMESTEP K)) ∧
    (¬ (b.current_pos.x - b.radius < 0 ∨ b.current_pos.x + b.radius > (WINDOW_WIDTH : K)) →
      b.constrain_x = b) := by
  unfold Ball.constrain_x
  split_ifs with h1 h2
  · refine ⟨fun _ => ?_, fun h => absurd (Or.inl h1) h⟩
    simp only [get_velocity_x, Ball.set_velocity, Vec2.sub, Vec2.scale, Vec2.mul, TIMESTEP]
    field_simp
    ring
  · refine ⟨fun _ => ?_, fun h => absurd (Or.inr h2) h⟩
    simp only [get_velocity_x, Ball.set_velocity, Vec2.sub, Vec2.scale, Vec2.mul, TIMESTEP]
    field_simp
    ring
  · exact ⟨fun h => absurd h (not_or.mpr ⟨h1, h2⟩), fun _ => rfl⟩

theorem constrain_y_velocity (b : Ball K) :
    ((b.current_pos.y + b.radius > (WINDOW_HEIGHT : K) ∨ b.current_pos.y - b.radius < 0) →
      b.constrain_y.get_velocity.y = -(WALL_RESTITUTION K) *
        (b.get_velocity.y + (b.constrain_y.current_pos.y - b.current_pos.y) / TIMESTEP K)) ∧
    (¬ (b.current_pos.y + b.radius > (WINDOW_HEIGHT : K) ∨ b.current_pos.y - b.radius < 0) →
      b.constrain_y = b) := by
  unfold Ball.constrain_y
  split_ifs with h1 h2
  · refine ⟨fun _ => ?_, fun h => absurd (Or.inl h1) h⟩
    simp only [get_velocity_y, Ball.set_velocity, Vec2.sub, Vec2.scale, Vec2.mul, TIMESTEP]
    field_simp
    ring
  · refine ⟨fun _ => ?_, fun h => absurd (Or.inr h2) h⟩
    simp only [get_velocity_y, Ball.set_velocity, Vec2.sub, Vec2.scale, Vec2.mul, TIMESTEP]
    field_simp
    ring
  · exact ⟨fun h => absurd h (not_or.mpr ⟨h1, h2⟩), fun _ => rfl⟩

end WallLemmas

/-- What the wall step of `constrain_bounds` computes. The velocity is read with
`get_velocity` after `current_pos` was clamped, so on an axis whose wall is
crossed the normal component ends at `-WALL_RESTITUTION` times the sum of the
component before the call and `(clamped position - position before) / TIMESTEP`,
and not at `-WALL_RESTITUTION` times the component before the call; a component
whose axis is not crossed is unchanged, and both axes are handled in one call. -/
theorem constrain_bounds_reflection {K : Type} [LinearOrderedField K] (b : Ball K) :
    ((b.current_pos.x - b.radius < 0 ∨ b.current_pos.x + b.radius > (WINDOW_WIDTH : K)) →
      b.constrain_bounds.get_velocity.x = -(WALL_RESTITUTION K) *
        (b.get_velocity.x +
          (b.constrain_bounds.current_pos.x - b.current_pos.x) / TIMESTEP K)) ∧
    (¬ (b.current_pos.x - b.radius < 0 ∨ b.current_pos.x + b.radius > (WINDOW_WIDTH : K)) →
      b.constrain_bounds.get_velocity.x = b.get_velocity.x) ∧
    ((b.current_pos.y + b.radius > (WINDOW_HEIGHT : K) ∨ b.current_pos.y - b.radius < 0) →
      b.constrain_bounds.get_velocity.y = -(WALL_RESTITUTION K) *
        (b.get_velocity.y +
          (b.constrain_bounds.current_pos.y - b.current_pos.y) / TIMESTEP K)) ∧
    (¬ (b.current_pos.y + b.radius > (WINDOW_HEIGHT : K) ∨ b.current_pos.y - b.radius < 0) →
      b.constrain_bounds.get_velocity.y = b.get_velocity.y) := by
  obtain ⟨fy, fr, fv⟩ := constrain_x_frame b
  obtain ⟨gx, gv⟩ := constrain_y_frame b.constrain_x
  obtain ⟨x1, x2⟩ := constrain_x_velocity b
  obtain ⟨y1, y2⟩ := constrain_y_velocity b.constrain_x
  rw [fy, fr] at y1 y2
  unfold Ball.constrain_bounds
  refine ⟨fun h => ?_, fun h => ?_, fun h => ?_, fun h => ?_⟩
  · rw [gv, gx]; exact x1 h
  · rw [gv, x2 h]
  · rw [y1 h, fv]
  · rw [y2 h, fv]

/-- A particle crossing the right and the top wall: the x component ends at
`-0.95 * (40 + (780 - 790) / 0.01)`. -/
theorem constrain_bounds_reflection_witness :
    cornerBall.constrain_bounds.get_velocity.x = -(WALL_RESTITUTION ℚ) *
      (cornerBall.get_velocity.x +
        (cornerBall.constrain_bounds.current_pos.x - cornerBall.current_pos.x) / TIMESTEP ℚ) :=
  (constrain_bounds_reflection cornerBall).1
    (Or.inr (by norm_num [cornerBall, Ball.new, WINDOW_WIDTH]))

/-- C13 (the code at the failing input): a particle of radius 20 at `(10, 300)`
with velocity `(-50, 30)` crosses the left wall; after `constrain_bounds` its
velocity is `(-902.5, 30)`, still into the wall, not the `(47.5, 30)` of a
reflection scaled by `0.95`: the velocity is read after `current_pos` was
clamped. -/
theorem constrain_bounds_wall_scenario :
    wallBall.current_pos.x - wallBall.radius < 0 ∧
    wallBall.get_velocity = ⟨-50, 30⟩ ∧
    wallBall.constrain_bounds.get_velocity = ⟨-1805 / 2, 30⟩ ∧
    wallBall.constrain_bounds.get_velocity.x ≠ -(WALL_RESTITUTION ℚ) * wallBall.get_velocity.x := by
  norm_num [wallBall, Ball.new, Ball.constrain_bounds, Ball.constrain_x, Ball.constrain_y,
    Ball.set_velocity, Ball.get_velocity, Vec2.sub, Vec2.scale, Vec2.mul, Vec2.div,
    WINDOW_WIDTH, WINDOW_HEIGHT, TIMESTEP, WALL_RESTITUTION]

/-- C14 (as amended): the constructor stores the radius and the mass it is
given, whatever their sign, and reports the given position; for two particles
with positive masses every mass denominator of `resolve_collision` is non-zero. -/
theorem constructor_stores_masses {K : Type} [LinearOrderedField K] (pos v : Vec2 K)
    (r m : K) (a b : Ball K) (hma : 0 < a.mass) (hmb : 0 < b.mass) :
    (Ball.new pos v r m).radius = r ∧ (Ball.new pos v r m).mass = m ∧
    (Ball.new pos v r m).current_pos = pos ∧
    ∀ d ∈ resolveDenominators a b, d ≠ 0 := by
  refine ⟨rfl, rfl, rfl, ?_⟩
  intro d hd
  simp only [resolveDenominators, List.mem_cons, List.mem_singleton, List.not_mem_nil,
    or_false] at hd
  rcases hd with rfl | rfl | rfl | rfl <;> positivity

/-- Witness for C14: the scenario pair, both of mass 20. -/
theorem constructor_stores_masses_witness :
    headOnA.mass + headOnB.mass ≠ 0 :=
  (constructor_stores_masses (⟨0, 0⟩ : Vec2 ℚ) ⟨0, 0⟩ 1 1 headOnA headOnB
    (by norm_num [headOnA, Ball.new]) (by norm_num [headOnB, Ball.new])).2.2.2 _
    (by simp [resolveDenominators])

/-- C14 (counterexample): a particle with radius `-1` and mass `0` is
constructed, and two overlapping particles constructed with mass `0` pass the
overlap guard of `resolve_collision` with `total_mass = 0` as a denominator. -/
theorem constructor_accepts_invalid :
    invalidBall.radius ≤ 0 ∧ invalidBall.mass ≤ 0 ∧
    (distSq masslessA masslessB <
        (masslessA.radius + masslessB.radius) * (masslessA.radius + masslessB.radius) ∧
      distSq masslessA masslessB > 0) ∧
    masslessA.mass + masslessB.mass = 0 ∧
    (0 : ℚ) ∈ resolveDenominators masslessA masslessB := by
  norm_num [invalidBall, masslessA, masslessB, Ball.new, distSq, Vec2.sub, Vec2.lengthSq,
    resolveDenominators]

/-! ### Deduplication in the indexed pass -/

section Dedup

variable {K : Type} [LinearOrderedField K]

theorem candidateStep_checks (sqrt : K → K) (b1 b2 : Ptr) (st : PassState K × List Nat)
    (h : st.1.checks = st.1.calls.length) :
    (candidateStep sqrt b1 st b2).1.checks = (candidateStep sqrt b1 st b2).1.calls.length := by
  unfold candidateStep
  split_ifs
  · exact h
  · exact h
  · simp [PassState.resolve, h]

theorem candidates_checks (sqrt : K → K) (b1 : Ptr) (cands : List Ptr)
    (st : PassState K × List Nat) (h : st.1.checks = st.1.calls.length) :
    (cands.foldl (candidateStep sqrt b1) st).1.checks =
      (cands.foldl (candidateStep sqrt b1) st).1.calls.length := by
  induction cands generalizing st with
  | nil => exact h
  | cons c rest ih =>
    rw [List.foldl_cons]
    exact ih _ (candidateStep_checks sqrt b1 c st h)

theorem queries_checks (sqrt : K → K) (balls : List Ptr) (tree : Quadtree K) (maxr : K)
    (is : List Nat) (st : PassState K × List Nat) (h : st.1.checks = st.1.calls.length) :
    (is.foldl (queryStep sqrt tree maxr balls) st).1.checks =
      (is.foldl (queryStep sqrt tree maxr balls) st).1.calls.length := by
  induction is generalizing st with
  | nil => exact h
  | cons i rest ih =>
    rw [List.foldl_cons]
    exact ih _ (candidates_checks sqrt _ _ st h)

/-- The count returned by the indexed pass is the number of logged calls. -/
theorem quadtree_pass_checks (sqrt : K → K) (fuel : Nat) (heap : Heap K) (balls : List Ptr)
    (st : PassState K) (hq : handle_collisions_quadtree sqrt fuel heap balls = some st) :
    st.checks = st.calls.length := by
  unfold handle_collisions_quadtree at hq
  cases hb : Quadtree.insertAll heap fuel (Quadtree.leaf (root_boundary K) []) balls with
  | none => simp [hb] at hq
  | some p =>
    obtain ⟨tree, rs⟩ := p
    simp only [hb, Option.some.injEq] at hq
    have := queries_checks sqrt balls tree (max_radius heap balls) (List.range balls.length)
      (⟨heap, 0, []⟩, []) rfl
    rw [hq] at this
    exact this

end Dedup

/-- C11: in a call of `handle_collisions_quadtree` over `n` particles that
returns (pairwise distinct or not), `resolve_collision` is never called on a
particle paired with itself, no unordered pair is resolved twice, the returned
count is the number of unordered pairs resolved, and it is at most
`n (n - 1) / 2`. -/
theorem quadtree_dedup {K : Type} [LinearOrderedField K] (sqrt : K → K) (fuel : Nat)
    (heap : Heap K) (balls : List Ptr) (st : PassState K)
    (hq : handle_collisions_quadtree sqrt fuel heap balls = some st) :
    (∀ pq ∈ st.calls, pq.1 ≠ pq.2) ∧
    (unorderedPairs st.calls).Nodup ∧
    st.checks = (unorderedPairs st.calls).length ∧
    st.checks ≤ balls.length * (balls.length - 1) / 2 := by
  obtain ⟨h1, h2⟩ := quadtree_pass_inv sqrt fuel heap balls st hq
  have hc := quadtree_pass_checks sqrt fuel heap balls st hq
  have hlen : (unorderedPairs st.calls).length = st.calls.length := by
    simp [unorderedPairs]
  refine ⟨fun pq hpq => (h1 pq hpq).1, h2, by rw [hc, hlen], ?_⟩
  have hsub : unorderedPairs st.calls ⊆
      unorderedPairs (handle_collisions_bruteforce sqrt heap balls).calls := by
    intro pr hpr
    rw [unorderedPairs, List.mem_map] at hpr
    obtain ⟨⟨p, q⟩, hpq, rfl⟩ := hpr
    obtain ⟨a1, a2, a3⟩ := h1 (p, q) hpq
    exact bruteforce_mem sqrt heap balls p q a2 a3 a1
  have hle := (List.subperm_of_subset h2 hsub).length_le
  have hbf : (unorderedPairs (handle_collisions_bruteforce sqrt heap balls).calls).length =
      balls.length * (balls.length - 1) / 2 := by
    rw [unorderedPairs, List.length_map, bruteforce_calls, List.length_map, indexPairs_length]
  rw [hc, ← hlen, ← hbf]
  exact hle

/-- Witness for C11: the six-particle configuration; the count 10 is the number
of unordered pairs resolved, against a bound of 15. -/
theorem quadtree_dedup_witness :
    (10 : Nat) = (unorderedPairs [(1, 2), (1, 3), (1, 4), (1, 5), (2, 3), (2, 4), (2, 5),
      (3, 4), (3, 5), (4, 5)]).length ∧
    (10 : Nat) ≤ [1, 2, 3, 4, 5, 6].length * ([1, 2, 3, 4, 5, 6].length - 1) / 2 :=
  (quadtree_dedup Rat.sqrt 2 sixHeap [1, 2, 3, 4, 5, 6] _ six_quadtree_pass).2.2

/-! ### The deduplication key on 64-bit addresses -/

theorem keyHeap_build :
    Quadtree.insertAll keyHeap 1 (Quadtree.leaf (root_boundary ℚ) [])
        [4096, 4294971392, 8589934592] =
      some (Quadtree.leaf (root_boundary ℚ) [4096, 4294971392, 8589934592],
        [true, true, true]) := by
  rw [root_boundary_rat]
  norm_num [Quadtree.insertAll, Quadtree.insert, Quadtree.boundary, Boundary.contains,
    keyHeap, Ball.new, QUAD_CAPACITY]

theorem keyHeap_max_radius : max_radius keyHeap [4096, 4294971392, 8589934592] = 20 := by
  norm_num [max_radius, keyHeap, Ball.new]

theorem keyHeap_query (b : Ptr) :
    (Quadtree.leaf (root_boundary ℚ) [4096, 4294971392, 8589934592]).query
        (search_range (keyHeap b) 20) [] = [4096, 4294971392, 8589934592] := by
  rw [root_boundary_rat, query_leaf]
  have h : (⟨⟨400, 300⟩, 400, 300⟩ : Boundary ℚ).intersects (search_range (keyHeap b) 20) =
      true := by
    rw [intersects_iff]
    simp only [search_range, keyHeap, Ball.new]
    split_ifs <;> norm_num
  rw [h]
  rfl

theorem keyHeap_resolve (n : Nat) (cs : List (Ptr × Ptr)) (q : Ptr)
    (hq : q = 4294971392 ∨ q = 8589934592) :
    (⟨keyHeap, n, cs⟩ : PassState ℚ).resolve Rat.sqrt 4096 q =
      ⟨keyHeap, n + 1, cs ++ [(4096, q)]⟩ := by
  have h : resolve_collision Rat.sqrt (keyHeap 4096) (keyHeap q) =
      (keyHeap 4096, keyHeap q) := by
    apply resolve_collision_noop
    rcases hq with rfl | rfl <;>
    norm_num [distSq, keyHeap, Ball.new, Vec2.sub, Vec2.lengthSq]
  simp only [PassState.resolve, h, Function.update_eq_self]

theorem keyHeap_keys :
    pairKey 4096 4294971392 = 17596481015808 ∧ pairKey 4294971392 4096 = 17596481015808 ∧
    pairKey 4096 8589934592 = 17600775979008 ∧ pairKey 8589934592 4096 = 17600775979008 ∧
    pairKey 4294971392 8589934592 = 17600775979008 ∧
    pairKey 8589934592 4294971392 = 17600775979008 := by
  decide

theorem keyHeap_pass :
    handle_collisions_quadtree Rat.sqrt 1 keyHeap [4096, 4294971392, 8589934592] =
      some ⟨keyHeap, 2, [(4096, 4294971392), (4096, 8589934592)]⟩ := by
  obtain ⟨k1, k2, k3, k4, k5, k6⟩ := keyHeap_keys
  simp only [handle_collisions_quadtree, keyHeap_build, keyHeap_max_radius]
  simp [List.range, List.range.loop, queryStep, keyHeap_query, candidateStep, keyHeap_resolve,
    k1, k2, k3, k4, k5, k6]

/-- C18 (the code at the failing input): three distinct particles at the
64-bit addresses `0x1000`, `0x100001000`, `0x200000000`. The two different
unordered pairs `{0x1000, 0x200000000}` and `{0x100001000, 0x200000000}` get the
same key, and the indexed pass, with all three particles as candidates of each
other, returns after two calls without resolving the overlapping pair
`{0x100001000, 0x200000000}`. -/
theorem pair_key_collision_skips_pair :
    (4096 < 2 ^ 64 ∧ 4294971392 < 2 ^ 64 ∧ 8589934592 < 2 ^ 64) ∧
    Sym2.mk ((4096 : Ptr), (8589934592 : Ptr)) ≠ Sym2.mk (4294971392, 8589934592) ∧
    pairKey 4096 8589934592 = pairKey 4294971392 8589934592 ∧
    (distSq (keyHeap 4294971392) (keyHeap 8589934592) <
        ((keyHeap 4294971392).radius + (keyHeap 8589934592).radius) ^ 2 ∧
      0 < distSq (keyHeap 4294971392) (keyHeap 8589934592)) ∧
    handle_collisions_quadtree Rat.sqrt 1 keyHeap [4096, 4294971392, 8589934592] =
      some ⟨keyHeap, 2, [(4096, 4294971392), (4096, 8589934592)]⟩ := by
  refine ⟨by decide, ?_, ?_, ?_, keyHeap_pass⟩
  · simp [Sym2.mk_eq_mk_iff]
  · rw [keyHeap_keys.2.2.1, keyHeap_keys.2.2.2.2.1]
  · norm_num [distSq, keyHeap, Ball.new, Vec2.sub, Vec2.lengthSq]

/-! ### Building with coincident particles -/

/-- C19 (the code at the failing input): six particles at `(100, 0)`, a
position on the lower edge of the arena root and inside its closed boundary;
the build by successive `insert` calls returns within no recursion depth. -/
theorem build_six_coincident_diverges :
    (∀ p ∈ [1, 2, 3, 4, 5, 6], (root_boundary ℚ).contains (stackHeap p) = true) ∧
    ∀ fuel : Nat,
      Quadtree.insertAll stackHeap fuel (Quadtree.leaf (root_boundary ℚ) []) [1, 2, 3, 4, 5, 6] =
        none := by
  have hc : ∀ p : Ptr, (root_boundary ℚ).contains (stackHeap p) = true := by
    intro p
    rw [root_boundary_rat]
    norm_num [Boundary.contains, stackHeap, Ball.new]
  refine ⟨fun p _ => hc p, fun fuel => ?_⟩
  cases fuel with
  | zero => simp [Quadtree.insertAll, Quadtree.insert]
  | succ n =>
    have h6 := insert_coincident_none stackHeap 6 1 2 3 4 5 rfl rfl rfl rfl rfl (n + 1)
      (root_boundary ℚ) (hc 6)
    simp [Quadtree.insertAll, insert_leaf_small, QUAD_CAPACITY, hc, h6]

/-! ### Node invariant -/

/-- Each child after the child loop is the child before it or the result of
the recursive call on it. -/
theorem tryChildren_components {K : Type} (ins : Quadtree K → Option (Bool × Quadtree K))
    (cs : Quadtree.Children K) (r : Bool) (cs1 : Quadtree.Children K)
    (h : Quadtree.tryChildren ins cs = some (r, cs1)) :
    (cs1.1 = cs.1 ∨ ∃ q, ins cs.1 = some (q, cs1.1)) ∧
    (cs1.2.1 = cs.2.1 ∨ ∃ q, ins cs.2.1 = some (q, cs1.2.1)) ∧
    (cs1.2.2.1 = cs.2.2.1 ∨ ∃ q, ins cs.2.2.1 = some (q, cs1.2.2.1)) ∧
    (cs1.2.2.2 = cs.2.2.2 ∨ ∃ q, ins cs.2.2.2 = some (q, cs1.2.2.2)) := by
  obtain ⟨c0, c1, c2, c3⟩ := cs
  unfold Quadtree.tryChildren at h
  simp only at h
  cases h0 : ins c0 with
  | none => simp [h0] at h
  | some p0 =>
    obtain ⟨r0, d0⟩ := p0
    cases r0 with
    | true =>
      simp only [h0, Option.some.injEq, Prod.mk.injEq] at h
      obtain ⟨_, rfl⟩ := h
      exact ⟨Or.inr ⟨_, rfl⟩, Or.inl rfl, Or.inl rfl, Or.inl rfl⟩
    | false =>
      simp only [h0] at h
      cases h1 : ins c1 with
      | none => simp [h1] at h
      | some p1 =>
        obtain ⟨r1, d1⟩ := p1
        cases r1 with
        | true =>
          simp only [h1, Option.some.injEq, Prod.mk.injEq] at h
          obtain ⟨_, rfl⟩ := h
          exact ⟨Or.inr ⟨_, rfl⟩, Or.inr ⟨_, rfl⟩, Or.inl rfl, Or.inl rfl⟩
        | false =>
          simp only [h1] at h
          cases h2 : ins c2 with
          | none => simp [h2] at h
          | some p2 =>
            obtain ⟨r2, d2⟩ := p2
            cases r2 with
            | true =>
              simp only [h2, Option.some.injEq, Prod.mk.injEq] at h
              obtain ⟨_, rfl⟩ := h
              exact ⟨Or.inr ⟨_, rfl⟩, Or.inr ⟨_, rfl⟩, Or.inr ⟨_, rfl⟩, Or.inl rfl⟩
            | false =>
              simp only [h2] at h
              cases h3 : ins c3 with
              | none => simp [h3] at h
              | some p3 =>
                obtain ⟨r3, d3⟩ := p3
                simp only [h3, Option.some.injEq, Prod.mk.injEq] at h
                obtain ⟨_, rfl⟩ := h
                exact ⟨Or.inr ⟨_, rfl⟩, Or.inr ⟨_, rfl⟩, Or.inr ⟨_, rfl⟩,
                  Or.inr ⟨_, rfl⟩⟩

/-- A property of trees kept by the recursive call is kept, child by child, by
the child loop. -/
theorem tryChildren_preserves {K : Type} (P : Quadtree K → Prop)
    (ins : Quadtree K → Option (Bool × Quadtree K))
    (hins : ∀ c q c1, ins c = some (q, c1) → P c → P c1)
    (cs : Quadtree.Children K) (r : Bool) (cs1 : Quadtree.Children K)
    (h : Quadtree.tryChildren ins cs = some (r, cs1))
    (hP : P cs.1 ∧ P cs.2.1 ∧ P cs.2.2.1 ∧ P cs.2.2.2) :
    P cs1.1 ∧ P cs1.2.1 ∧ P cs1.2.2.1 ∧ P cs1.2.2.2 := by
  obtain ⟨a0, a1, a2, a3⟩ := tryChildren_components ins cs r cs1 h
  obtain ⟨p0, p1, p2, p3⟩ := hP
  refine ⟨?_, ?_, ?_, ?_⟩
  · rcases a0 with e | ⟨q, e⟩
    · rw [e]; exact p0
    · exact hins _ _ _ e p0
  · rcases a1 with e | ⟨q, e⟩
    · rw [e]; exact p1
    · exact hins _ _ _ e p1
  · rcases a2 with e | ⟨q, e⟩
    · rw [e]; exact p2
    · exact hins _ _ _ e p2
  · rcases a3 with e | ⟨q, e⟩
    · rw [e]; exact p3
    · exact hins _ _ _ e p3

section NodeInvariant

variable {K : Type} [LinearOrderedField K]

open Quadtree

/-- The redistribution loop keeps, child by child, a property kept by the
recursive call, and every particle it leaves at the node was either there
before or is rejected by the boundaries of all four children. -/
theorem redistribute_preserves (heap : Heap K) (P : Quadtree K → Prop)
    (ins : Ptr → Quadtree K → Option (Bool × Quadtree K))
    (hok : ∀ b c r c1, ins b c = some (r, c1) → InsertOk heap b c r c1)
    (hins : ∀ b c q c1, ins b c = some (q, c1) → P c → P c1)
    (old kept : List Ptr) (cs : Children K) (kept1 : List Ptr) (cs1 : Children K)
    (h : redistribute ins old (kept, cs) = some (kept1, cs1))
    (hP : P cs.1 ∧ P cs.2.1 ∧ P cs.2.2.1 ∧ P cs.2.2.2) :
    (P cs1.1 ∧ P cs1.2.1 ∧ P cs1.2.2.1 ∧ P cs1.2.2.2) ∧
    ∀ b ∈ kept1, b ∈ kept ∨
      (cs.1.boundary.contains (heap b) = false ∧ cs.2.1.boundary.contains (heap b) = false ∧
        cs.2.2.1.boundary.contains (heap b) = false ∧
        cs.2.2.2.boundary.contains (heap b) = false) := by
  induction old generalizing kept cs with
  | nil =>
    simp only [redistribute, Option.some.injEq, Prod.mk.injEq] at h
    obtain ⟨rfl, rfl⟩ := h
    exact ⟨hP, fun b hb => Or.inl hb⟩
  | cons b rest ih =>
    simp only [redistribute] at h
    cases ht : tryChildren (ins b) cs with
    | none => simp [ht] at h
    | some p =>
      obtain ⟨r, cs2⟩ := p
      have ok := tryChildren_ok heap b (ins b) (hok b) cs r cs2 ht
      have hP2 := tryChildren_preserves P (ins b) (hins b) cs r cs2 ht hP
      have hbd := ok.boundary_eq
      simp only [boundaries4, Prod.mk.injEq] at hbd
      obtain ⟨e0, e1, e2, e3⟩ := hbd
      cases r with
      | true =>
        simp only [ht] at h
        obtain ⟨g1, g2⟩ := ih kept cs2 h hP2
        refine ⟨g1, fun x hx => ?_⟩
        rcases g2 x hx with hx2 | hx2
        · exact Or.inl hx2
        · rw [e0, e1, e2, e3] at hx2; exact Or.inr hx2
      | false =>
        simp only [ht] at h
        obtain ⟨g1, g2⟩ := ih (kept ++ [b]) cs2 h hP2
        refine ⟨g1, fun x hx => ?_⟩
        rcases g2 x hx with hx2 | hx2
        · rcases List.mem_append.mp hx2 with hx3 | hx3
          · exact Or.inl hx3
          · rw [List.mem_singleton] at hx3
            subst hx3
            have hres := ok.result
            simp only [Bool.false_eq, Bool.or_eq_false_iff] at hres
            exact Or.inr ⟨hres.1.1.1, hres.1.1.2, hres.1.2, hres.2⟩
        · rw [e0, e1, e2, e3] at hx2; exact Or.inr hx2

/-- A returning `insert` call keeps the node invariant. -/
theorem insert_nodeInv (heap : Heap K) (fuel : Nat) (t : Quadtree K) (b : Ptr) (r : Bool)
    (t1 : Quadtree K) (h : Quadtree.insert heap fuel t b = some (r, t1))
    (hinv : t.NodeInv heap) : t1.NodeInv heap := by
  induction fuel generalizing t b r t1 with
  | zero => simp [Quadtree.insert] at h
  | succ n ih =>
    unfold Quadtree.insert at h
    by_cases hc : t.boundary.contains (heap b) = true
    · simp only [hc, Bool.not_true, Bool.false_eq_true, if_false] at h
      cases t with
      | leaf bd bs =>
        simp only at h
        split_ifs at h with hlen
        · simp only [Option.some.injEq, Prod.mk.injEq] at h
          obtain ⟨_, rfl⟩ := h
          simp only [NodeInv, List.length_append, List.length_singleton]
          omega
        · cases hr : redistribute (fun b c => Quadtree.insert heap n c b) bs ([], subdivide bd) with
          | none => simp [hr] at h
          | some p =>
            obtain ⟨kept, cs⟩ := p
            simp only [hr] at h
            obtain ⟨hP, hkept⟩ := redistribute_preserves heap (NodeInv heap)
              (fun b c => Quadtree.insert heap n c b)
              (fun b c r c1 hh => insert_ok heap n c b r c1 hh)
              (fun b c q c1 hh => ih c b q c1 hh) bs [] (subdivide bd) kept cs hr
              (by simp [subdivide, NodeInv])
            obtain ⟨hb, _, _, _⟩ := redistribute_ok heap (fun b c => Quadtree.insert heap n c b)
              (fun b c r c1 hh => insert_ok heap n c b r c1 hh) bs [] (subdivide bd) kept cs hr
            cases ht : tryChildren (fun c => Quadtree.insert heap n c b) cs with
            | none => simp [ht] at h
            | some p2 =>
              obtain ⟨r2, cs2⟩ := p2
              have ok := tryChildren_ok heap b (fun c => Quadtree.insert heap n c b)
                (fun c r c1 hh => insert_ok heap n c b r c1 hh) cs r2 cs2 ht
              have hP2 := tryChildren_preserves (NodeInv heap)
                (fun c => Quadtree.insert heap n c b) (fun c q c1 hh => ih c b q c1 hh)
                cs r2 cs2 ht hP
              have hb2 : boundaries4 cs2 = boundaries4 (subdivide bd) := ok.boundary_eq.trans hb
              have hb1 := hb
              simp only [boundaries4, Prod.mk.injEq] at hb2 hb1
              obtain ⟨e0, e1, e2, e3⟩ := hb2
              obtain ⟨f0, f1, f2, f3⟩ := hb1
              have hk : ∀ x ∈ kept, cs2.1.boundary.contains (heap x) = false ∧
                  cs2.2.1.boundary.contains (heap x) = false ∧
                  cs2.2.2.1.boundary.contains (heap x) = false ∧
                  cs2.2.2.2.boundary.contains (heap x) = false := by
                intro x hx
                rcases hkept x hx with hx2 | hx2
                · simp at hx2
                · rw [e0, e1, e2, e3]; exact hx2
              cases r2 with
              | true =>
                simp only [ht, Option.some.injEq, Prod.mk.injEq] at h
                obtain ⟨_, rfl⟩ := h
                exact ⟨hk, hP2⟩
              | false =>
                simp only [ht, Option.some.injEq, Prod.mk.injEq] at h
                obtain ⟨_, rfl⟩ := h
                refine ⟨fun x hx => ?_, hP2⟩
                rcases List.mem_append.mp hx with hx2 | hx2
                · exact hk x hx2
                · rw [List.mem_singleton] at hx2
                  subst hx2
                  have hres := ok.result
                  simp only [Bool.false_eq, Bool.or_eq_false_iff] at hres
                  rw [e0, e1, e2, e3, ← f0, ← f1, ← f2, ← f3]
                  exact ⟨hres.1.1.1, hres.1.1.2, hres.1.2, hres.2⟩
      | node bd bs c0 c1 c2 c3 =>
        simp only at h
        simp only [NodeInv] at hinv
        obtain ⟨hbs, hP⟩ := hinv
        cases ht : tryChildren (fun c => Quadtree.insert heap n c b) (c0, c1, c2, c3) with
        | none => simp [ht] at h
        | some p2 =>
          obtain ⟨r2, cs2⟩ := p2
          have ok := tryChildren_ok heap b (fun c => Quadtree.insert heap n c b)
            (fun c r c1 hh => insert_ok heap n c b r c1 hh) (c0, c1, c2, c3) r2 cs2 ht
          have hP2 := tryChildren_preserves (NodeInv heap)
            (fun c => Quadtree.insert heap n c b) (fun c q c1 hh => ih c b q c1 hh)
            (c0, c1, c2, c3) r2 cs2 ht hP
          have hb2 := ok.boundary_eq
          simp only [boundaries4, Prod.mk.injEq] at hb2
          obtain ⟨e0, e1, e2, e3⟩ := hb2
          have hk : ∀ x ∈ bs, cs2.1.boundary.contains (heap x) = false ∧
              cs2.2.1.boundary.contains (heap x) = false ∧
              cs2.2.2.1.boundary.contains (heap x) = false ∧
              cs2.2.2.2.boundary.contains (heap x) = false := by
            intro x hx
            rw [e0, e1, e2, e3]; exact hbs x hx
          cases r2 with
          | true =>
            simp only [ht, Option.some.injEq, Prod.mk.injEq] at h
            obtain ⟨_, rfl⟩ := h
            exact ⟨hk, hP2⟩
          | false =>
            simp only [ht, Option.some.injEq, Prod.mk.injEq] at h
            obtain ⟨_, rfl⟩ := h
            refine ⟨fun x hx => ?_, hP2⟩
            rcases List.mem_append.mp hx with hx2 | hx2
            · exact hk x hx2
            · rw [List.mem_singleton] at hx2
              subst hx2
              have hres := ok.result
              simp only [Bool.false_eq, Bool.or_eq_false_iff] at hres
              rw [e0, e1, e2, e3]
              exact ⟨hres.1.1.1, hres.1.1.2, hres.1.2, hres.2⟩
    · simp only [hc, Bool.not_false, if_true, Option.some.injEq, Prod.mk.injEq] at h
      obtain ⟨_, rfl⟩ := h
      exact hinv

theorem insertAll_nodeInv (heap : Heap K) (fuel : Nat) (t : Quadtree K) (bs : List Ptr)
    (t1 : Quadtree K) (rs : List Bool) (h : insertAll heap fuel t bs = some (t1, rs))
    (hinv : t.NodeInv heap) : t1.NodeInv heap := by
  induction bs generalizing t rs with
  | nil =>
    simp only [insertAll, Option.some.injEq, Prod.mk.injEq] at h
    obtain ⟨rfl, _⟩ := h
    exact hinv
  | cons b rest ih =>
    simp only [insertAll] at h
    cases hi : Quadtree.insert heap fuel t b with
    | none => simp [hi] at h
    | some p =>
      obtain ⟨r, t2⟩ := p
      simp only [hi] at h
      cases hr : insertAll heap fuel t2 rest with
      | none => simp [hr] at h
      | some p2 =>
        obtain ⟨t3, rs2⟩ := p2
        simp only [hr, Option.some.injEq, Prod.mk.injEq] at h
        obtain ⟨rfl, _⟩ := h
        exact ih t2 rs2 hr (insert_nodeInv heap fuel t b r t2 hi hinv)

/-- The recursive invariant gives the spec-worded property at every node. -/
theorem nodeOk_of_nodeInv (heap : Heap K) (t : Quadtree K) (hinv : t.NodeInv heap) :
    ∀ s ∈ t.nodes, NodeOk heap s := by
  induction t with
  | leaf bd bs =>
    intro s hs
    simp only [nodes, List.mem_singleton] at hs
    subst hs
    exact ⟨fun _ => hinv, fun h => by simp [divided] at h⟩
  | node bd bs c0 c1 c2 c3 ih0 ih1 ih2 ih3 =>
    simp only [NodeInv] at hinv
    obtain ⟨hbs, k0, k1, k2, k3⟩ := hinv
    intro s hs
    simp only [nodes, List.mem_cons, List.mem_append] at hs
    rcases hs with rfl | hs | hs | hs | hs
    · refine ⟨fun h => by simp [divided] at h, fun _ => ⟨rfl, ?_⟩⟩
      intro b hb c hc
      obtain ⟨a0, a1, a2, a3⟩ := hbs b hb
      simp only [children, List.mem_cons, List.mem_singleton, List.not_mem_nil, or_false] at hc
      rcases hc with rfl | rfl | rfl | rfl
      · exact a0
      · exact a1
      · exact a2
      · exact a3
    · exact ih0 k0 s hs
    · exact ih1 k1 s hs
    · exact ih2 k2 s hs
    · exact ih3 k3 s hs

end NodeInvariant

/-- C17: in a tree built from an empty root by successive `insert` calls, every
undivided node holds at most `QUAD_CAPACITY` particles directly, every divided
node has exactly four children, and no particle held directly by a divided
node lies inside the boundary of one of its children. -/
theorem built_tree_node_invariant {K : Type} [LinearOrderedField K] (heap : Heap K)
    (fuel : Nat) (bd : Boundary K) (bs : List Ptr) (t : Quadtree K) (rs : List Bool)
    (hbuild : Quadtree.insertAll heap fuel (Quadtree.leaf bd []) bs = some (t, rs)) :
    ∀ s ∈ t.nodes,
      (s.divided = false → s.balls.length ≤ QUAD_CAPACITY) ∧
      (s.divided = true → s.children.length = 4 ∧
        ∀ b ∈ s.balls, ∀ c ∈ s.children, c.boundary.contains (heap b) = false) :=
  nodeOk_of_nodeInv heap t
    (insertAll_nodeInv heap fuel _ bs t rs hbuild (by simp [Quadtree.NodeInv]))

/-- Witness for C17: in the six-particle build, whose root has split once, the
root has four children and its child 0 holds five particles. -/
theorem built_tree_node_invariant_witness :
    sixTree.children.length = 4 ∧
    (Quadtree.leaf ⟨⟨200, 150⟩, 200, 150⟩ [1, 2, 3, 4, 5] : Quadtree ℚ).balls.length ≤
      QUAD_CAPACITY :=
  ⟨((built_tree_node_invariant sixHeap 2 (root_boundary ℚ) [1, 2, 3, 4, 5, 6] sixTree
      [true, true, true, true, true, true] six_build sixTree
      (by simp [sixTree, Quadtree.nodes])).2 rfl).1,
   (built_tree_node_invariant sixHeap 2 (root_boundary ℚ) [1, 2, 3, 4, 5, 6] sixTree
      [true, true, true, true, true, true] six_build _
      (by simp [sixTree, Quadtree.nodes])).1 rfl⟩

/-! ### Contents of a built tree -/

section Contents

variable {K : Type} [LinearOrderedField K]

open Quadtree

theorem inside_intersects {b r : Boundary K} (h : b.inside r) : b.intersects r = true := by
  obtain ⟨h1, h2, h3, h4, h5, h6⟩ := h
  rw [intersects_iff]
  refine ⟨?_, ?_, ?_, ?_⟩ <;> linarith

theorem subdivide_inside {b r : Boundary K} (h : b.inside r) :
    (subdivide b).1.boundary.inside r ∧ (subdivide b).2.1.boundary.inside r ∧
    (subdivide b).2.2.1.boundary.inside r ∧ (subdivide b).2.2.2.boundary.inside r := by
  obtain ⟨h1, h2, h3, h4, h5, h6⟩ := h
  simp only [subdivide, boundary, Boundary.inside]
  refine ⟨⟨?_, ?_, ?_, ?_, ?_, ?_⟩, ⟨?_, ?_, ?_, ?_, ?_, ?_⟩, ⟨?_, ?_, ?_, ?_, ?_, ?_⟩,
    ⟨?_, ?_, ?_, ?_, ?_, ?_⟩⟩ <;> linarith

/-- A query whose range covers the root of a quartered tree returns every
stored particle, in preorder. -/
theorem query_covering (r : Boundary K) (t : Quadtree K) (hq : t.Quartered)
    (hin : t.boundary.inside r) : t.query r [] = t.allBalls := by
  induction t with
  | leaf bd bs =>
    have hin0 : bd.inside r := hin
    rw [query_leaf, inside_intersects hin0]
    rfl
  | node bd bs c0 c1 c2 c3 ih0 ih1 ih2 ih3 =>
    simp only [Quartered] at hq
    obtain ⟨_, _, e0, e1, e2, e3, q0, q1, q2, q3⟩ := hq
    have hin0 : bd.inside r := hin
    obtain ⟨s0, s1, s2, s3⟩ := subdivide_inside hin0
    rw [← e0] at s0
    rw [← e1] at s1
    rw [← e2] at s2
    rw [← e3] at s3
    rw [query_node, inside_intersects hin0, ih0 q0 s0, ih1 q1 s1, ih2 q2 s2, ih3 q3 s3]
    rfl

theorem zip_map_filter {α : Type} (f : α → Bool) (l : List α) :
    ((l.zip (l.map f)).filter (fun p => p.2)).map (fun p => p.1) = l.filter f := by
  induction l with
  | nil => rfl
  | cons a rest ih =>
    simp only [List.map_cons, List.zip_cons_cons]
    cases hf : f a
    · rw [List.filter_cons_of_neg (by simp [hf]), List.filter_cons_of_neg (by simp [hf]), ih]
    · rw [List.filter_cons_of_pos (by simp [hf]), List.filter_cons_of_pos (by simp [hf]),
        List.map_cons, ih]

end Contents

/-- C20: in a tree built from an empty root by successive `insert` calls, the
particles held over all nodes are, as a multiset, exactly the particles whose
`insert` returned `true`, and `query` with the root's own boundary returns
exactly these particles. -/
theorem insert_preserves_contents {K : Type} [LinearOrderedField K] (heap : Heap K)
    (fuel : Nat) (bd : Boundary K) (bs : List Ptr) (t : Quadtree K) (rs : List Bool)
    (hbuild : Quadtree.insertAll heap fuel (Quadtree.leaf bd []) bs = some (t, rs)) :
    t.allBalls.Perm (((bs.zip rs).filter (fun p => p.2)).map (fun p => p.1)) ∧
    t.query t.boundary [] = t.allBalls := by
  obtain ⟨hrs, hbd, hperm, _, hq⟩ := insertAll_ok heap fuel _ bs t rs hbuild
  have hbd2 : t.boundary = bd := hbd
  simp only [Quadtree.allBalls, List.nil_append, Quadtree.boundary] at hperm
  have hacc : ((bs.zip rs).filter (fun p => p.2)).map (fun p => p.1) =
      bs.filter (fun b => bd.contains (heap b)) := by
    rw [hrs]
    exact zip_map_filter (fun b => bd.contains (heap b)) bs
  refine ⟨by rw [hacc]; exact hperm, ?_⟩
  by_cases hext : 0 ≤ bd.half_width ∧ 0 ≤ bd.half_height
  · apply query_covering _ t (hq trivial)
    rw [hbd2]
    exact ⟨hext.1, hext.2, le_refl _, le_refl _, le_refl _, le_refl _⟩
  · have hnone : bs.filter (fun b => bd.contains (heap b)) = [] := by
      rw [List.filter_eq_nil_iff]
      intro b _ hb
      exact hext (contains_half_extents hb)
    rw [hnone] at hperm
    have hall : t.allBalls = [] := hperm.eq_nil
    rw [hall, List.eq_nil_iff_forall_not_mem]
    intro b hb
    have := query_subset_allBalls _ t b hb
    rw [hall] at this
    exact absurd this (List.not_mem_nil b)

/-- Witness for C20: the six-particle build holds the six accepted particles. -/
theorem insert_preserves_contents_witness :
    sixTree.query sixTree.boundary [] = sixTree.allBalls :=
  (insert_preserves_contents sixHeap 2 (root_boundary ℚ) [1, 2, 3, 4, 5, 6] sixTree
    [true, true, true, true, true, true] six_build).2

/-! ### The recursion bound does not change results -/

/-- The child loop with a recursive call that returns at least as often returns
the same result. -/
theorem tryChildren_mono {K : Type} (ins ins2 : Quadtree K → Option (Bool × Quadtree K))
    (hle : ∀ c y, ins c = some y → ins2 c = some y)
    (cs : Quadtree.Children K) (z : Bool × Quadtree.Children K)
    (h : Quadtree.tryChildren ins cs = some z) : Quadtree.tryChildren ins2 cs = some z := by
  obtain ⟨c0, c1, c2, c3⟩ := cs
  unfold Quadtree.tryChildren at h ⊢
  simp only at h ⊢
  cases h0 : ins c0 with
  | none => simp [h0] at h
  | some p0 =>
    obtain ⟨r0, d0⟩ := p0
    rw [hle _ _ h0]
    cases r0 with
    | true => simpa [h0] using h
    | false =>
      simp only [h0] at h ⊢
      cases h1 : ins c1 with
      | none => simp [h1] at h
      | some p1 =>
        obtain ⟨r1, d1⟩ := p1
        rw [hle _ _ h1]
        cases r1 with
        | true => simpa [h1] using h
        | false =>
          simp only [h1] at h ⊢
          cases h2 : ins c2 with
          | none => simp [h2] at h
          | some p2 =>
            obtain ⟨r2, d2⟩ := p2
            rw [hle _ _ h2]
            cases r2 with
            | true => simpa [h2] using h
            | false =>
              simp only [h2] at h ⊢
              cases h3 : ins c3 with
              | none => simp [h3] at h
              | some p3 =>
                rw [hle _ _ h3]
                simpa [h3] using h

theorem redistribute_mono {K : Type}
    (ins ins2 : Ptr → Quadtree K → Option (Bool × Quadtree K))
    (hle : ∀ b c y, ins b c = some y → ins2 b c = some y)
    (old : List Ptr) (st z : List Ptr × Quadtree.Children K)
    (h : Quadtree.redistribute ins old st = some z) :
    Quadtree.redistribute ins2 old st = some z := by
  induction old generalizing st with
  | nil => simpa [Quadtree.redistribute] using h
  | cons b rest ih =>
    obtain ⟨kept, cs⟩ := st
    simp only [Quadtree.redistribute] at h ⊢
    cases ht : Quadtree.tryChildren (ins b) cs with
    | none => simp [ht] at h
    | some p =>
      rw [tryChildren_mono (ins b) (ins2 b) (hle b) cs p ht]
      obtain ⟨r, cs1⟩ := p
      cases r with
      | true =>
        simp only [ht] at h ⊢
        exact ih _ h
      | false =>
        simp only [ht] at h ⊢
        exact ih _ h

/-- A call of `insert` that returns within depth `n` returns the same result
within every larger depth. -/
theorem insert_mono {K : Type} [LinearOrderedField K] (heap : Heap K) (n m : Nat)
    (hnm : n ≤ m) (t : Quadtree K) (b : Ptr) (y : Bool × Quadtree K)
    (h : Quadtree.insert heap n t b = some y) : Quadtree.insert heap m t b = some y := by
  induction n generalizing m t b y with
  | zero => simp [Quadtree.insert] at h
  | succ n ih =>
    obtain ⟨m, rfl⟩ : ∃ k, m = k + 1 := ⟨m - 1, by omega⟩
    have hnm2 : n ≤ m := by omega
    have hle1 : ∀ c y, Quadtree.insert heap n c b = some y →
        Quadtree.insert heap m c b = some y := fun c y hh => ih m hnm2 c b y hh
    have hle2 : ∀ b c y, Quadtree.insert heap n c b = some y →
        Quadtree.insert heap m c b = some y := fun b c y hh => ih m hnm2 c b y hh
    unfold Quadtree.insert at h ⊢
    by_cases hc : t.boundary.contains (heap b) = true
    · simp only [hc, Bool.not_true, Bool.false_eq_true, if_false] at h ⊢
      cases t with
      | leaf bd bs =>
        simp only at h ⊢
        split_ifs at h ⊢ with hlen
        · exact h
        · cases hr : Quadtree.redistribute (fun b c => Quadtree.insert heap n c b) bs
              ([], Quadtree.subdivide bd) with
          | none => simp [hr] at h
          | some p =>
            rw [redistribute_mono _ (fun b c => Quadtree.insert heap m c b) hle2 bs _ p hr]
            obtain ⟨kept, cs⟩ := p
            simp only [hr] at h ⊢
            cases ht : Quadtree.tryChildren (fun c => Quadtree.insert heap n c b) cs with
            | none => simp [ht] at h
            | some p2 =>
              rw [tryChildren_mono _ (fun c => Quadtree.insert heap m c b) hle1 cs p2 ht]
              simpa [ht] using h
      | node bd bs c0 c1 c2 c3 =>
        simp only at h ⊢
        cases ht : Quadtree.tryChildren (fun c => Quadtree.insert heap n c b)
            (c0, c1, c2, c3) with
        | none => simp [ht] at h
        | some p2 =>
          rw [tryChildren_mono _ (fun c => Quadtree.insert heap m c b) hle1 _ p2 ht]
          simpa [ht] using h
    · simp only [hc, Bool.not_false, if_true] at h ⊢
      exact h

theorem insertAll_mono {K : Type} [LinearOrderedField K] (heap : Heap K) (n m : Nat)
    (hnm : n ≤ m) (t : Quadtree K) (bs : List Ptr) (y : Quadtree K × List Bool)
    (h : Quadtree.insertAll heap n t bs = some y) : Quadtree.insertAll heap m t bs = some y := by
  induction bs generalizing t y with
  | nil => simpa [Quadtree.insertAll] using h
  | cons b rest ih =>
    simp only [Quadtree.insertAll] at h ⊢
    cases hi : Quadtree.insert heap n t b with
    | none => simp [hi] at h
    | some p =>
      rw [insert_mono heap n m hnm t b p hi]
      obtain ⟨r, t1⟩ := p
      simp only [hi] at h ⊢
      cases hr : Quadtree.insertAll heap n t1 rest with
      | none => simp [hr] at h
      | some p2 =>
        rw [ih t1 p2 hr]
        simpa [hr] using h

end FinalProject
